import Mathlib

/-!
Verification of the Category & Attribute Resolution Engine of the
marktplaatser backend.  The Python sources embedded here are
`category_matcher.py`, `src/marktplaats_backend/attribute_mapper.py`,
`src/marktplaats_backend/generate_listing_lambda.py` and
`src/marktplaats_backend/create_advertisement_lambda.py`, together with the
parts of CPython's `difflib` that they call (`get_close_matches`,
`SequenceMatcher.ratio`, `quick_ratio`, `real_quick_ratio`).

Machine floats are modelled exactly with `ℚ` (every ratio difflib computes is
a rational with small numerator and denominator), Python dicts with
insertion-ordered association lists, and Python exceptions with `Except`.
-/

namespace Marktplaatser

/-! ### Python string ordering

Python compares strings lexicographically by code point; tuple comparison is
componentwise.  `difflib.get_close_matches` sorts `(score, word)` tuples, so
this ordering decides ties between equal scores. -/

/-- Python lexicographic `<` on strings, by code point. -/
def pyStrLt : List Char → List Char → Bool
  | [], [] => false
  | [], _ :: _ => true
  | _ :: _, [] => false
  | c :: cs, d :: ds =>
    if c.toNat < d.toNat then true
    else if d.toNat < c.toNat then false
    else pyStrLt cs ds

/-! ### CPython `difflib.SequenceMatcher`, embedded

The repository always constructs `SequenceMatcher()` with `isjunk = None`
(via `get_close_matches`), so `bjunk` is the empty set; the only junk
mechanism in play is `autojunk`, which purges "popular" characters (count
greater than `len(b) // 100 + 1`, and only when `len(b) >= 200`) from the
`b2j` index.  Popular characters are therefore invisible to the dynamic
programming scan but still participate in the two non-junk extension loops
of `find_longest_match`; the two `isbjunk` extension loops never fire. -/

/-- The set of "popular" characters of `b` purged from `b2j` by autojunk:
empty when `len(b) < 200`, else characters occurring more than
`len(b) // 100 + 1` times. -/
def bpopular (b : List Char) : Char → Bool :=
  if b.length < 200 then fun _ => false
  else fun c => decide (b.length / 100 + 1 < b.count c)

/-- `eRun pop a b i j` is the length of the longest popular-free matching run
ending at `a[i]` and `b[j]`: the value `j2len[j]` holds at the end of row `i`
of `find_longest_match`'s scan (0 when `a[i] != b[j]` or `b[j]` is purged
from `b2j`). -/
def eRun (pop : Char → Bool) (a b : List Char) : Nat → Nat → Nat
  | 0, j =>
    match a[0]?, b[j]? with
    | some x, some y => if x = y ∧ pop y = false then 1 else 0
    | _, _ => 0
  | i + 1, 0 =>
    match a[i + 1]?, b[0]? with
    | some x, some y => if x = y ∧ pop y = false then 1 else 0
    | _, _ => 0
  | i + 1, j + 1 =>
    match a[i + 1]?, b[j + 1]? with
    | some x, some y => if x = y ∧ pop y = false then eRun pop a b i j + 1 else 0
    | _, _ => 0

/-- All index pairs `(i, j)` with `i < la`, `j < lb` in the row-major order
in which `find_longest_match` examines them. -/
def allPairs (la lb : Nat) : List (Nat × Nat) :=
  (List.range la).flatMap (fun i => (List.range lb).map (fun j => (i, j)))

/-- The scan phase of `find_longest_match` on the whole of `a` and `b`:
fold over all index pairs keeping the first block attaining each strictly
larger run length.  Returns `(besti, bestj, bestsize)`, initially
`(0, 0, 0)`. -/
def flmCore (pop : Char → Bool) (a b : List Char) : Nat × Nat × Nat :=
  (allPairs a.length b.length).foldl
    (fun best p =>
      let k := eRun pop a b p.1 p.2
      if best.2.2 < k then (p.1 + 1 - k, p.2 + 1 - k, k) else best)
    (0, 0, 0)

/-- The two leftward `while` loops of `find_longest_match` (with `isjunk =
None` the `not isbjunk(...)` test is vacuous, so the condition is just
equality of the adjacent characters).  Arguments and result are
`(besti, bestj, bestsize)`. -/
def extLeft (a b : List Char) : Nat → Nat → Nat → Nat × Nat × Nat
  | 0, j, k => (0, j, k)
  | i + 1, 0, k => (i + 1, 0, k)
  | i + 1, j + 1, k =>
    match a[i]?, b[j]? with
    | some x, some y =>
      if x = y then extLeft a b i j (k + 1) else (i + 1, j + 1, k)
    | _, _ => (i + 1, j + 1, k)

/-- The rightward `while` loop of `find_longest_match`: grow `bestsize`
while the characters just past the block are equal (fuelled; fuel
`a.length` always suffices since each step needs `i + k < a.length`). -/
def extRight (a b : List Char) (i j : Nat) : Nat → Nat → Nat
  | 0, k => k
  | fuel + 1, k =>
    match a[i + k]?, b[j + k]? with
    | some x, some y =>
      if x = y then extRight a b i j fuel (k + 1) else k
    | _, _ => k

/-- `find_longest_match` over all of `a`, `b` (window handling is done by
slicing in `matchSumF`): DP scan, then best-block extension on both ends. -/
def flm (pop : Char → Bool) (a b : List Char) : Nat × Nat × Nat :=
  let r0 := flmCore pop a b
  let r1 := extLeft a b r0.1 r0.2.1 r0.2.2
  let k2 := extRight a b r1.1 r1.2.1 a.length r1.2.2
  (r1.1, r1.2.1, k2)

/-- Total size of the matching blocks of `get_matching_blocks` (the quantity
`ratio` sums), computed by the recursive divide-and-conquer that the queue
in `get_matching_blocks` implements, on explicit slices.  Fuelled: any
`fuel > a.length` computes the true value, the wrapper `matchSum` passes
`a.length + 1`. -/
def matchSumF (pop : Char → Bool) : Nat → List Char → List Char → Nat
  | 0, _, _ => 0
  | fuel + 1, a, b =>
    let r := flm pop a b
    if r.2.2 = 0 then 0
    else
      matchSumF pop fuel (a.take r.1) (b.take r.2.1) + r.2.2 +
        matchSumF pop fuel (a.drop (r.1 + r.2.2)) (b.drop (r.2.1 + r.2.2))

/-- Number of matching characters between `a` and `b` per difflib. -/
def matchSum (pop : Char → Bool) (a b : List Char) : Nat :=
  matchSumF pop (a.length + 1) a b

/-- `_calculate_ratio(matches, length)`: the exact rational `2 * M / T`
(difflib computes its floating-point image; every comparison the library
then makes agrees with the exact value), or `1.0` when both sequences are
empty. -/
def calcRatio (m t : Nat) : ℚ :=
  if t = 0 then 1 else Rat.divInt (2 * (m : Int)) (t : Int)

/-- `SequenceMatcher(None, a, b).ratio()`.  The popular set is always the
one derived from `b` (difflib computes it in `set_seq2`); it is passed
explicitly so statements can name it. -/
def ratio (pop : Char → Bool) (a b : List Char) : ℚ :=
  calcRatio (matchSum pop a b) (a.length + b.length)

/-- The multiset-intersection count computed by `quick_ratio`:
`sum over distinct characters c of a of min(count_a c, count_b c)`. -/
def quickMatches (a b : List Char) : Nat :=
  a.dedup.foldl (fun acc c => acc + min (a.count c) (b.count c)) 0

/-- `SequenceMatcher.quick_ratio()`. -/
def quick_ratio (a b : List Char) : ℚ :=
  calcRatio (quickMatches a b) (a.length + b.length)

/-- `SequenceMatcher.real_quick_ratio()`. -/
def real_quick_ratio (a b : List Char) : ℚ :=
  calcRatio (min a.length b.length) (a.length + b.length)

/-- Python `<` on `(score, word)` tuples as compared by `max` inside
`heapq.nlargest(1, result)`. -/
def pyTupleLt (p q : ℚ × String) : Bool :=
  decide (p.1 < q.1) || (decide (p.1 = q.1) && pyStrLt p.2.data q.2.data)

/-- Python `max` over a list (first maximal element wins ties; with
distinct words full ties cannot occur). -/
def pyMax : List (ℚ × String) → Option (ℚ × String)
  | [] => none
  | x :: xs => some (xs.foldl (fun best y => if pyTupleLt best y then y else best) x)

/-- `difflib.get_close_matches(word, possibilities, n=1, cutoff)`, returning
the single best match if any candidate passes the three-stage cutoff test. -/
def get_close_matches_one (word : String) (poss : List String) (cutoff : ℚ) : Option String :=
  let b := word.data
  let pop := bpopular b
  let result := poss.filter (fun x =>
    decide (cutoff ≤ real_quick_ratio x.data b) &&
    decide (cutoff ≤ quick_ratio x.data b) &&
    decide (cutoff ≤ ratio pop x.data b))
  (pyMax (result.map (fun x => (ratio pop x.data b, x)))).map (fun p => p.2)

/-! ### Python dictionaries and string helpers -/

/-- One Python dict assignment `d[k] = v`: replace the value at an existing
key (keeping its insertion position) or append a fresh binding. -/
def pyDictInsert (d : List (String × α)) (k : String) (v : α) : List (String × α) :=
  if d.any (fun p => p.1 = k) then
    d.map (fun p => if p.1 = k then (k, v) else p)
  else d ++ [(k, v)]

/-- A Python dict built by inserting the given bindings in order (dict
comprehension / repeated assignment). -/
def pyDict (xs : List (String × α)) : List (String × α) :=
  xs.foldl (fun d p => pyDictInsert d p.1 p.2) []

/-- Python `str.strip()`: remove whitespace from both ends. -/
def pyStrip (s : String) : String :=
  ⟨((s.data.dropWhile Char.isWhitespace).reverse.dropWhile Char.isWhitespace).reverse⟩

/-- Python `str.split(sep)` for a single-character separator: splits at
every occurrence, keeping empty parts. -/
def splitOnChar (c : Char) : List Char → List (List Char)
  | [] => [[]]
  | x :: xs =>
    match splitOnChar c xs with
    | [] => [[]]
    | g :: gs => if x = c then [] :: g :: gs else (x :: g) :: gs

/-- If `sep` is a prefix of `l`, strip it and return the remainder. -/
def stripSepPre : List Char → List Char → Option (List Char)
  | [], l => some l
  | _ :: _, [] => none
  | s :: ss, x :: xs => if x = s then stripSepPre ss xs else none

/-- Python `str.split(sep)` for a multi-character separator (fuelled;
`fuel > length` always suffices): leftmost non-overlapping splitting,
keeping empty parts. -/
def splitOnSepF (c : Char) (cs : List Char) : Nat → List Char → List (List Char)
  | 0, rest => [rest]
  | _ + 1, [] => [[]]
  | fuel + 1, x :: xs =>
    match stripSepPre (c :: cs) (x :: xs) with
    | some rest => [] :: splitOnSepF c cs fuel rest
    | none =>
      match splitOnSepF c cs fuel xs with
      | [] => [[]]
      | g :: gs => (x :: g) :: gs

/-- Python `s.split(sep)` (for the nonempty separators used in the code). -/
def pySplit (sep : String) (s : String) : List String :=
  match sep.data with
  | [] => [s]
  | c :: cs => (splitOnSepF c cs (s.data.length + 1) s.data).map (fun l => ⟨l⟩)

/-- Python `sep.join(parts)`. -/
def pyJoin (sep : String) : List String → String
  | [] => ""
  | [p] => p
  | p :: q :: rest => p ++ sep ++ pyJoin sep (q :: rest)

/-! ### `category_matcher.py` -/

/-- One entry of the flattened taxonomy (`{"name": full_path, "id":
categoryId}` in the source); `name` is the full `" > "`-joined path. -/
structure FlatCat where
  name : String
  id : Int
deriving DecidableEq

/-- The fuzzy-match cutoff `0.6` passed to `get_close_matches` both for
category paths and for attribute labels. -/
def matchCutoff : ℚ := mkRat 3 5

/-- The lower cutoff `0.4` used for fuzzy-matching enum values. -/
def enumValueCutoff : ℚ := mkRat 2 5

/-- A node of the external category tree: display name (the `labels["nl-NL"]`
entry when present, else `name`), stable id, ordered children. -/
inductive CatNode where
  | node (name : String) (labelNl : Option String) (categoryId : Int)
      (children : List CatNode)

/-- `flatten_categories`: depth-first flattening preserving child order,
joining path segments with `" > "` and stripping the stored copy. -/
def flatten_categories : List CatNode → String → List FlatCat
  | [], _ => []
  | CatNode.node nm lbl cid children :: rest, parent_path =>
    let name := lbl.getD nm
    let full_path := if parent_path = "" then name else parent_path ++ " > " ++ name
    ⟨pyStrip full_path, cid⟩ ::
      (flatten_categories children full_path ++ flatten_categories rest parent_path)

/-- `simplify_path`: split on `'>'`, strip each part, and collapse to
`first + " > " + last` whenever there are at least two parts. -/
def simplify_path (path : String) : String :=
  let parts := (splitOnChar ('>') path.data).map (fun l => pyStrip ⟨l⟩)
  if 2 ≤ parts.length then
    (parts.headD "") ++ " > " ++ (parts.getLastD "")
  else pyStrip path

/-- `match_category_name`: simplify the suggested path, then fuzzy-match it
against the flattened names at cutoff `0.6`; `none` models Python's
`None` ("not found"). -/
def match_category_name (suggested_path : String) (flat_categories : List FlatCat) :
    Option (String × Int) :=
  let simplified_path := simplify_path suggested_path
  let name_to_id := pyDict (flat_categories.map (fun c => (c.name, c.id)))
  match get_close_matches_one simplified_path (name_to_id.map (fun p => p.1)) matchCutoff with
  | some match_name =>
    (name_to_id.find? (fun p => p.1 = match_name)).map (fun p => (match_name, p.2))
  | none => none

/-! ### `attribute_mapper.py` -/

/-- One entry of a category's attribute schema as consumed by the mapper:
`key`, the optional `labels["nl-NL"]` and `label` fields, the optional
`options` list (presence of the `"options"` key marks an enum field) whose
entries carry an optional `value` token, and the `required` flag (absent
defaults to false). -/
structure MpAttr where
  key : String
  labelNl : Option String
  label : Option String
  options : Option (List (Option String))
  required : Bool
deriving DecidableEq

/-- The display label the mapper indexes by:
`attr.get("labels", {}).get("nl-NL") or attr.get("label", "")` (Python `or`
falls through on `None` and on the empty string). -/
def attrDisplayLabel (a : MpAttr) : String :=
  match a.labelNl with
  | some s => if s = "" then a.label.getD "" else s
  | none => a.label.getD ""

/-- A normalized AI attribute `{name, value}`. -/
structure AIAttr where
  name : String
  value : String
deriving DecidableEq

/-- A mapped attribute `{key, value}` emitted towards the marketplace API. -/
structure MappedAttr where
  key : String
  value : String
deriving DecidableEq

/-- One element of a list-shaped AI payload: a record with optionally
present `name` and `value` keys, or something that is not a dict. -/
inductive RawItem where
  | record (name : Option String) (value : Option String)
  | other
deriving DecidableEq

/-- The duck-typed AI attribute payload: a name-to-value map, a list of
records, or anything else. -/
inductive RawAttrs where
  | dict (pairs : List (String × String))
  | list (items : List RawItem)
  | other
deriving DecidableEq

/-- `_normalize_ai_attributes`: a dict maps to its `{name, value}` pairs in
order; a list keeps exactly the dict items having both a `name` and a
`value` key; anything else normalizes to `[]`. -/
def normalize_ai_attributes : RawAttrs → List AIAttr
  | RawAttrs.dict pairs => pairs.map (fun p => ⟨p.1, p.2⟩)
  | RawAttrs.list items =>
    items.filterMap (fun it =>
      match it with
      | RawItem.record (some n) (some v) => some ⟨n, v⟩
      | _ => none)
  | RawAttrs.other => []

/-- The `label -> attribute` lookup dict built by
`map_ai_attributes_to_marktplaats` (empty labels are skipped). -/
def buildNameToAttr (mp_attributes : List MpAttr) : List (String × MpAttr) :=
  mp_attributes.foldl
    (fun d attr =>
      let label := attrDisplayLabel attr
      if label = "" then d else pyDictInsert d label attr)
    []

/-- The body of the mapping loop for one normalized AI attribute: fuzzy
label match at cutoff `0.6`; for enum fields an exact value match, then a
fuzzy value match at cutoff `0.4`, else the attribute is skipped
(`continue`). -/
def mapOneAttr (name_to_attr : List (String × MpAttr)) (ai_attr : AIAttr) :
    Option MappedAttr :=
  match get_close_matches_one ai_attr.name (name_to_attr.map (fun p => p.1)) matchCutoff with
  | none => none
  | some m =>
    match name_to_attr.find? (fun p => p.1 = m) with
    | none => none
    | some p =>
      let attr_key := p.2.key
      let ai_value := ai_attr.value
      match p.2.options with
      | some options =>
        let valid_values := options.map (fun o => o.getD "")
        if ai_value ∈ valid_values then some ⟨attr_key, ai_value⟩
        else
          match get_close_matches_one ai_value valid_values enumValueCutoff with
          | some v => some ⟨attr_key, v⟩
          | none => none
      | none => some ⟨attr_key, ai_value⟩

/-- `map_ai_attributes_to_marktplaats`: normalize, then run the mapping
loop, dropping attributes for which it `continue`s. -/
def map_ai_attributes_to_marktplaats (ai_attributes : RawAttrs)
    (mp_attributes : List MpAttr) : List MappedAttr :=
  (normalize_ai_attributes ai_attributes).filterMap
    (mapOneAttr (buildNameToAttr mp_attributes))

/-- The error cases of `fetch_category_attributes` (each a `ValueError`
raised by the source; the caller catches them). -/
inductive FetchError where
  | categoryNotFound (category_id : Int)
  | notApplicable (category_name : String) (level : Nat)
  | parentNotFound (level_1_name : String)
deriving DecidableEq

/-- `fetch_category_attributes`.  The HTTP call to
`/categories/{parentId}/{categoryId}/attributes` is the external attributes
service, abstracted as `fetchFields`; everything before it is the source's
local applicability logic: resolve the id, require exactly two `" > "`
path segments (level 2), then locate the level-1 parent by its name. -/
def fetch_category_attributes (fetchFields : Int → Int → List MpAttr)
    (category_id : Int) (flat_categories : List FlatCat) :
    Except FetchError (List MpAttr) :=
  match flat_categories.find? (fun c => c.id = category_id) with
  | none => Except.error (FetchError.categoryNotFound category_id)
  | some target_category =>
    let parts := pySplit (" > ") target_category.name
    if parts.length ≠ 2 then
      Except.error (FetchError.notApplicable target_category.name parts.length)
    else
      let level_1_name := parts.headD ""
      match flat_categories.find?
          (fun c => c.name = level_1_name ∧ (pySplit (" > ") c.name).length = 1) with
      | none => Except.error (FetchError.parentNotFound level_1_name)
      | some parent_category => Except.ok (fetchFields parent_category.id category_id)

/-! ### `generate_listing_lambda.py` -/

/-- Outcome of the category-resolution step of `lambda_handler` (lines
80–127): the two 400-error returns, or the category the handler proceeds
with. -/
inductive CategoryStepResult where
  | errCouldNotFind (category_id : Option Int) (suggested_category : String)
  | errCouldNotMatch (suggested_category : String)
  | ok (name : String) (id : Int)
deriving DecidableEq

/-- The category-resolution step of `generate_listing_lambda.lambda_handler`:
look the vector-search candidate id up in `flat`; when the lookup fails the
handler returns a 400 error, and when it succeeds control reaches the
`else` branch, which re-resolves via fuzzy text matching on the suggested
category and uses that result. -/
def resolve_listing_category (category_id : Option Int) (suggested_category : String)
    (flat : List FlatCat) : CategoryStepResult :=
  let category_match : Option FlatCat :=
    match category_id with
    | some cid => if cid ≠ 0 then flat.find? (fun c => c.id = cid) else none
    | none => none
  match category_match with
  | none => CategoryStepResult.errCouldNotFind category_id suggested_category
  | some _ =>
    match match_category_name suggested_category flat with
    | none => CategoryStepResult.errCouldNotMatch suggested_category
    | some (m, mid) => CategoryStepResult.ok m mid

/-- The attribute step of `generate_listing_lambda.lambda_handler` (lines
129–145): any `ValueError` from `fetch_category_attributes` (and any other
error) is caught and mapped to an empty attribute list. -/
def listing_mapped_attributes (fetchFields : Int → Int → List MpAttr)
    (category_id : Int) (flat : List FlatCat) (raw : RawAttrs) : List MappedAttr :=
  match fetch_category_attributes fetchFields category_id flat with
  | Except.ok mp_attributes => map_ai_attributes_to_marktplaats raw mp_attributes
  | Except.error _ => []

/-- `estimated_price = max(1, min(50000, int(estimated_price)))` when a
price estimate is present. -/
def sanitize_estimate : Option Int → Option Int
  | none => none
  | some e => some (max 1 (min 50000 e))

/-- A raw `priceRange` payload: absent, not a `{min, max}` dict, or a
well-formed range. -/
inductive RawRange where
  | absent
  | malformed
  | range (lo hi : Int)
deriving DecidableEq

/-- The sanitized range: both bounds clamped into `[1, 50000]`, swapped when
`min > max`; a malformed payload becomes `None`. -/
def sanitize_range : RawRange → Option (Int × Int)
  | RawRange.absent => none
  | RawRange.malformed => none
  | RawRange.range lo hi =>
    let lo' := max 1 (min 50000 lo)
    let hi' := max 1 (min 50000 hi)
    if hi' < lo' then some (hi', lo') else some (lo', hi')

/-- The price model stored on the draft. -/
structure PriceModel where
  modelType : String
  askingPrice : Int
  minimalBid : Option Int
  auctionDuration : Option Int
deriving DecidableEq

/-- The price-model step of `generate_listing_lambda.lambda_handler` (lines
193–220), applied to the already sanitized estimate.  For a present
estimate and a `"bidding"` suggestion the minimal bid is
`max(1, int(estimated_price * 0.05))`; `int(p * 0.05)` is exactly `p / 20`
(floor) for every integer `p` in the sanitized range `[1, 50000]`. -/
def build_price_model (sanitized_estimate : Option Int)
    (suggested_pricing_model : String) : PriceModel :=
  match sanitized_estimate with
  | some p =>
    if suggested_pricing_model = "bidding" then
      { modelType := "bidding", askingPrice := p,
        minimalBid := some (max 1 (p / 20)), auctionDuration := some 7 }
    else
      { modelType := "fixed", askingPrice := p,
        minimalBid := none, auctionDuration := none }
  | none =>
    { modelType := suggested_pricing_model, askingPrice := 0,
      minimalBid := none, auctionDuration := none }

/-! ### `create_advertisement_lambda.py` -/

/-- The required-attribute validation of
`create_advertisement_lambda.lambda_handler` (lines 156–168): the keys of
required schema entries that are absent from the provided attributes'
keys, in schema order. -/
def missing_required (category_attributes : List MpAttr)
    (provided : List MappedAttr) : List String :=
  let required_attrs := category_attributes.filter (fun a => a.required)
  let provided_attr_keys := provided.map (fun a => a.key)
  (required_attrs.filter (fun a => ¬ a.key ∈ provided_attr_keys)).map (fun a => a.key)

/-- A legal matching block: in bounds on both sides and character-for-
character equal. -/
def BlockOk (a b : List Char) (r : Nat × Nat × Nat) : Prop :=
  r.1 + r.2.2 ≤ a.length ∧ r.2.1 + r.2.2 ≤ b.length ∧
    ∀ t, t < r.2.2 → a[r.1 + t]? = b[r.2.1 + t]?


/-- The multiset of matched characters (the same recursion as `matchSumF`,
keeping the block contents instead of only their sizes); its cardinality is
`matchSumF` and it is contained in both `a` and `b`. -/
def matchMSF (pop : Char → Bool) : Nat → List Char → List Char → Multiset Char
  | 0, _, _ => 0
  | fuel + 1, a, b =>
    let r := flm pop a b
    if r.2.2 = 0 then 0
    else
      matchMSF pop fuel (a.take r.1) (b.take r.2.1) +
        (((a.drop r.1).take r.2.2 : List Char) : Multiset Char) +
        matchMSF pop fuel (a.drop (r.1 + r.2.2)) (b.drop (r.2.1 + r.2.2))

/-- Joining split groups back with the separator (used to relate a path to
its `" > "`-separated segments). -/
def joinCharGroups (sep : List Char) : List (List Char) → List Char
  | [] => []
  | [g] => g
  | g :: g' :: rest => g ++ sep ++ joinCharGroups sep (g' :: rest)

/-! ### Order facts about the tuple comparison and `pyMax` -/

theorem pyStrLt_irrefl : ∀ l : List Char, pyStrLt l l = false := by
  intro l
  induction l with
  | nil => rfl
  | cons c cs ih => simp [pyStrLt, ih]

theorem pyStrLt_trans : ∀ {l₁ l₂ l₃ : List Char},
    pyStrLt l₁ l₂ = true → pyStrLt l₂ l₃ = true → pyStrLt l₁ l₃ = true := by
  intro l₁
  induction l₁ with
  | nil =>
    intro l₂ l₃ h₁ h₂
    cases l₂ with
    | nil => exact absurd h₁ (by simp [pyStrLt])
    | cons c cs =>
      cases l₃ with
      | nil => exact absurd h₂ (by simp [pyStrLt])
      | cons d ds => rfl
  | cons c cs ih =>
    intro l₂ l₃ h₁ h₂
    cases l₂ with
    | nil => exact absurd h₁ (by simp [pyStrLt])
    | cons d ds =>
      cases l₃ with
      | nil => exact absurd h₂ (by simp [pyStrLt])
      | cons e es =>
        simp only [pyStrLt] at h₁ h₂ ⊢
        by_cases hcd : c.toNat < d.toNat
        · by_cases hde : d.toNat < e.toNat
          · simp [Nat.lt_trans hcd hde]
          · simp only [hde, if_false] at h₂
            by_cases hed : e.toNat < d.toNat
            · simp [hed] at h₂
            · have hde' : d.toNat = e.toNat := by omega
              simp [hde' ▸ hcd]
        · simp only [hcd, if_false] at h₁
          by_cases hdc : d.toNat < c.toNat
          · simp [hdc] at h₁
          · simp only [hdc, if_false] at h₁
            have hcd' : c.toNat = d.toNat := by omega
            by_cases hde : d.toNat < e.toNat
            · simp [hcd' ▸ hde]
            · simp only [hde, if_false] at h₂
              by_cases hed : e.toNat < d.toNat
              · simp [hed] at h₂
              · simp only [hed, if_false] at h₂
                have hce : ¬ c.toNat < e.toNat := by omega
                have hec : ¬ e.toNat < c.toNat := by omega
                simp only [hce, hec, if_false]
                exact ih h₁ h₂

theorem pyStrLt_connex : ∀ {l₁ l₂ : List Char}, l₁ ≠ l₂ →
    pyStrLt l₁ l₂ = true ∨ pyStrLt l₂ l₁ = true := by
  intro l₁
  induction l₁ with
  | nil =>
    intro l₂ hne
    cases l₂ with
    | nil => exact absurd rfl hne
    | cons d ds => left; rfl
  | cons c cs ih =>
    intro l₂ hne
    cases l₂ with
    | nil => right; rfl
    | cons d ds =>
      by_cases hcd : c.toNat < d.toNat
      · left; simp [pyStrLt, hcd]
      · by_cases hdc : d.toNat < c.toNat
        · right; simp [pyStrLt, hdc]
        · have hc : c = d := by
            have h : c.toNat = d.toNat := by omega
            exact Char.eq_of_val_eq (by
              apply UInt32.eq_of_val_eq
              exact Fin.eq_of_val_eq h)
          subst hc
          have hne' : cs ≠ ds := by
            intro h
            exact hne (by rw [h])
          rcases ih hne' with h | h
          · left; simp [pyStrLt, h]
          · right; simp [pyStrLt, h]


theorem pyTupleLt_irrefl (p : ℚ × String) : pyTupleLt p p = false := by
  simp [pyTupleLt, pyStrLt_irrefl]

theorem pyTupleLt_trans {p q r : ℚ × String} (h₁ : pyTupleLt p q = true)
    (h₂ : pyTupleLt q r = true) : pyTupleLt p r = true := by
  simp only [pyTupleLt, Bool.or_eq_true, Bool.and_eq_true, decide_eq_true_eq] at h₁ h₂ ⊢
  rcases h₁ with h₁ | ⟨h₁e, h₁s⟩
  · rcases h₂ with h₂ | ⟨h₂e, h₂s⟩
    · exact Or.inl (lt_trans h₁ h₂)
    · exact Or.inl (h₂e ▸ h₁)
  · rcases h₂ with h₂ | ⟨h₂e, h₂s⟩
    · exact Or.inl (h₁e ▸ h₂)
    · exact Or.inr ⟨h₁e.trans h₂e, pyStrLt_trans h₁s h₂s⟩

theorem pyTupleLt_asymm {p q : ℚ × String} (h : pyTupleLt p q = true) :
    pyTupleLt q p = false := by
  by_contra hne
  have h' : pyTupleLt q p = true := by
    cases hqp : pyTupleLt q p with
    | true => rfl
    | false => exact absurd hqp hne
  have := pyTupleLt_trans h h'
  rw [pyTupleLt_irrefl] at this
  exact Bool.false_ne_true this

theorem string_data_inj {s t : String} (h : s.data = t.data) : s = t := by
  cases s
  cases t
  exact congrArg String.mk h

theorem pyTupleLt_connex {p q : ℚ × String} (h : p ≠ q) :
    pyTupleLt p q = true ∨ pyTupleLt q p = true := by
  by_cases h1 : p.1 = q.1
  · by_cases h2 : p.2 = q.2
    · exact absurd (Prod.ext h1 h2) h
    · have hd : p.2.data ≠ q.2.data := fun hdd => h2 (string_data_inj hdd)
      rcases pyStrLt_connex hd with hs | hs
      · exact Or.inl (by simp [pyTupleLt, h1, hs])
      · exact Or.inr (by simp [pyTupleLt, h1.symm, hs])
  · rcases lt_or_gt_of_ne h1 with hq | hq
    · exact Or.inl (by simp [pyTupleLt, hq])
    · exact Or.inr (by simp [pyTupleLt, hq])

theorem pyMax_mem {l : List (ℚ × String)} {z : ℚ × String} (h : pyMax l = some z) :
    z ∈ l := by
  cases l with
  | nil => exact absurd h (by simp [pyMax])
  | cons x xs =>
    simp only [pyMax, Option.some.injEq] at h
    subst h
    have aux : ∀ (ys : List (ℚ × String)) (acc : ℚ × String),
        ys.foldl (fun best y => if pyTupleLt best y then y else best) acc = acc ∨
        ys.foldl (fun best y => if pyTupleLt best y then y else best) acc ∈ ys := by
      intro ys
      induction ys with
      | nil => intro acc; exact Or.inl rfl
      | cons y ys ih =>
        intro acc
        simp only [List.foldl_cons]
        by_cases hlt : pyTupleLt acc y = true
        · simp only [hlt, if_true]
          rcases ih y with h | h
          · exact Or.inr (by rw [h]; exact List.mem_cons_self y ys)
          · exact Or.inr (List.mem_cons_of_mem y h)
        · simp only [Bool.not_eq_true] at hlt
          simp only [hlt, Bool.false_eq_true, if_false]
          rcases ih acc with h | h
          · exact Or.inl h
          · exact Or.inr (List.mem_cons_of_mem y h)
    rcases aux xs x with h | h
    · rw [h]; exact List.mem_cons_self x xs
    · exact List.mem_cons_of_mem x h

theorem pyTupleLt_false_of_ge {f v w : ℚ × String} (hfv : pyTupleLt f v = false)
    (hvw : pyTupleLt v w = false) : pyTupleLt f w = false := by
  by_cases hfw : pyTupleLt f w = true
  · exfalso
    by_cases heq : w = v
    · rw [heq] at hfw
      rw [hfw] at hfv
      exact Bool.noConfusion hfv
    · rcases pyTupleLt_connex heq with hs | hs
      · have h2 := pyTupleLt_trans hfw hs
        rw [h2] at hfv
        exact Bool.noConfusion hfv
      · rw [hs] at hvw
        exact Bool.noConfusion hvw
  · simpa using hfw

theorem pyMax_not_lt {l : List (ℚ × String)} {z : ℚ × String} (h : pyMax l = some z) :
    ∀ y ∈ l, pyTupleLt z y = false := by
  cases l with
  | nil => exact absurd h (by simp [pyMax])
  | cons x xs =>
    simp only [pyMax, Option.some.injEq] at h
    have aux : ∀ (ys : List (ℚ × String)) (acc : ℚ × String),
        (∀ y ∈ ys,
          pyTupleLt (ys.foldl (fun best y => if pyTupleLt best y then y else best) acc) y
            = false) ∧
        pyTupleLt (ys.foldl (fun best y => if pyTupleLt best y then y else best) acc) acc
          = false := by
      intro ys
      induction ys with
      | nil =>
        intro acc
        exact ⟨fun y hy => absurd hy (List.not_mem_nil y), pyTupleLt_irrefl acc⟩
      | cons y ys ih =>
        intro acc
        simp only [List.foldl_cons]
        by_cases hlt : pyTupleLt acc y = true
        · simp only [hlt, if_true]
          refine ⟨?_, ?_⟩
          · intro w hw
            rcases List.mem_cons.mp hw with hw | hw
            · rw [hw]; exact (ih y).2
            · exact (ih y).1 w hw
          · -- the final best is not below the superseded accumulator either
            exact pyTupleLt_false_of_ge (ih y).2 (pyTupleLt_asymm hlt)
        · simp only [Bool.not_eq_true] at hlt
          simp only [hlt, Bool.false_eq_true, if_false]
          refine ⟨?_, (ih acc).2⟩
          intro w hw
          rcases List.mem_cons.mp hw with hw | hw
          · rw [hw]
            exact pyTupleLt_false_of_ge (ih acc).2 hlt
          · exact (ih acc).1 w hw
    intro y hy
    rcases List.mem_cons.mp hy with hy | hy
    · rw [hy, ← h]; exact (aux xs x).2
    · rw [← h]; exact (aux xs x).1 y hy

theorem pyMax_eq_none_iff {l : List (ℚ × String)} : pyMax l = none ↔ l = [] := by
  cases l with
  | nil => simp [pyMax]
  | cons x xs => simp [pyMax]

theorem pyMax_eq_of_greatest {l : List (ℚ × String)} {z : ℚ × String}
    (hz : z ∈ l) (hgt : ∀ y ∈ l, y ≠ z → pyTupleLt y z = true) :
    pyMax l = some z := by
  cases l with
  | nil => exact absurd hz (List.not_mem_nil z)
  | cons x xs =>
    simp only [pyMax, Option.some.injEq]
    have aux : ∀ (ys : List (ℚ × String)) (acc : ℚ × String),
        (∀ y ∈ ys, y ≠ z → pyTupleLt y z = true) →
        (acc = z ∨ (pyTupleLt acc z = true)) →
        (z ∈ ys ∨ acc = z) →
        ys.foldl (fun best y => if pyTupleLt best y then y else best) acc = z := by
      intro ys
      induction ys with
      | nil =>
        intro acc _ hacc hin
        rcases hin with hin | hin
        · exact absurd hin (List.not_mem_nil z)
        · exact hin
      | cons y ys ih =>
        intro acc hys hacc hin
        simp only [List.foldl_cons]
        have hys' : ∀ w ∈ ys, w ≠ z → pyTupleLt w z = true :=
          fun w hw => hys w (List.mem_cons_of_mem y hw)
        by_cases hyz : y = z
        · rw [hyz]
          rcases hacc with hacc | hacc
          · rw [hacc, pyTupleLt_irrefl]
            simp only [Bool.false_eq_true, if_false]
            exact ih z hys' (Or.inl rfl) (Or.inr rfl)
          · rw [hacc]
            simp only [if_true]
            exact ih z hys' (Or.inl rfl) (Or.inr rfl)
        · have hyltz : pyTupleLt y z = true := hys y (List.mem_cons_self y ys) hyz
          have hzin : z ∈ ys ∨ acc = z := by
            rcases hin with hin | hin
            · rcases List.mem_cons.mp hin with hin | hin
              · exact absurd hin.symm hyz
              · exact Or.inl hin
            · exact Or.inr hin
          rcases hacc with hacc | hacc
          · rw [hacc, pyTupleLt_asymm hyltz]
            simp only [Bool.false_eq_true, if_false]
            exact ih z hys' (Or.inl rfl) (Or.inr rfl)
          · by_cases hlt : pyTupleLt acc y = true
            · rw [hlt]
              simp only [if_true]
              refine ih y hys' (Or.inr hyltz) ?_
              rcases hzin with h | h
              · exact Or.inl h
              · exfalso
                rw [h, pyTupleLt_irrefl] at hacc
                exact Bool.noConfusion hacc
            · simp only [Bool.not_eq_true] at hlt
              rw [hlt]
              simp only [Bool.false_eq_true, if_false]
              exact ih acc hys' (Or.inr hacc) hzin
    have hgt' : ∀ w ∈ xs, w ≠ z → pyTupleLt w z = true :=
      fun w hw => hgt w (List.mem_cons_of_mem x hw)
    by_cases hxz : x = z
    · exact aux xs x hgt' (Or.inl hxz) (Or.inr hxz)
    · refine aux xs x hgt' (Or.inr (hgt x (List.mem_cons_self x xs) hxz)) ?_
      rcases List.mem_cons.mp hz with h | h
      · exact absurd h.symm hxz
      · exact Or.inl h

/-! ### Matching-block invariants of the `find_longest_match` embedding -/

theorem eRun_block (pop : Char → Bool) (a b : List Char) :
    ∀ i j, ∃ s t, s + eRun pop a b i j = i + 1 ∧ t + eRun pop a b i j = j + 1 ∧
      ∀ u, u < eRun pop a b i j → a[s + u]? = b[t + u]? := by
  intro i
  induction i with
  | zero =>
    intro j
    rw [eRun]
    cases ha : a[0]? with
    | none => exact ⟨1, j + 1, by simp, by simp, by simp⟩
    | some x =>
      cases hb : b[j]? with
      | none => exact ⟨1, j + 1, by simp, by simp, by simp⟩
      | some y =>
        dsimp only
        by_cases hxy : x = y ∧ pop y = false
        · rw [if_pos hxy]
          refine ⟨0, j, by simp, by simp, ?_⟩
          intro u hu
          have hu0 : u = 0 := by omega
          subst hu0
          simp only [Nat.add_zero, Nat.zero_add]
          rw [ha, hb, hxy.1]
        · rw [if_neg hxy]
          exact ⟨1, j + 1, by simp, by simp, by simp⟩
  | succ i ih =>
    intro j
    cases j with
    | zero =>
      rw [eRun]
      cases ha : a[i + 1]? with
      | none => exact ⟨i + 2, 1, by simp, by simp, by simp⟩
      | some x =>
        cases hb : b[0]? with
        | none => exact ⟨i + 2, 1, by simp, by simp, by simp⟩
        | some y =>
          dsimp only
          by_cases hxy : x = y ∧ pop y = false
          · rw [if_pos hxy]
            refine ⟨i + 1, 0, by simp, by simp, ?_⟩
            intro u hu
            have hu0 : u = 0 := by omega
            subst hu0
            simp only [Nat.add_zero]
            rw [ha, hb, hxy.1]
          · rw [if_neg hxy]
            exact ⟨i + 2, 1, by simp, by simp, by simp⟩
    | succ j' =>
      rw [eRun]
      cases ha : a[i + 1]? with
      | none => exact ⟨i + 2, j' + 2, by simp, by simp, by simp⟩
      | some x =>
        cases hb : b[j' + 1]? with
        | none => exact ⟨i + 2, j' + 2, by simp, by simp, by simp⟩
        | some y =>
          dsimp only
          by_cases hxy : x = y ∧ pop y = false
          · rw [if_pos hxy]
            obtain ⟨s, t, hs, ht, hblk⟩ := ih j'
            refine ⟨s, t, by omega, by omega, ?_⟩
            intro u hu
            by_cases hu' : u < eRun pop a b i j'
            · exact hblk u hu'
            · have hsi : s + u = i + 1 := by omega
              have htj : t + u = j' + 1 := by omega
              rw [hsi, htj, ha, hb, hxy.1]
          · rw [if_neg hxy]
            exact ⟨i + 2, j' + 2, by simp, by simp, by simp⟩

theorem eRun_le_left (pop : Char → Bool) (a b : List Char) (i j : Nat) :
    eRun pop a b i j ≤ i + 1 := by
  obtain ⟨s, t, hs, _, _⟩ := eRun_block pop a b i j
  omega

theorem eRun_le_right (pop : Char → Bool) (a b : List Char) (i j : Nat) :
    eRun pop a b i j ≤ j + 1 := by
  obtain ⟨s, t, _, ht, _⟩ := eRun_block pop a b i j
  omega

theorem allPairs_mem {la lb : Nat} {p : Nat × Nat} :
    p ∈ allPairs la lb ↔ p.1 < la ∧ p.2 < lb := by
  cases p with
  | mk i j =>
    simp only [allPairs, List.mem_flatMap, List.mem_map, List.mem_range, Prod.mk.injEq]
    constructor
    · rintro ⟨i', hi', j', hj', rfl, rfl⟩
      exact ⟨hi', hj'⟩
    · rintro ⟨hi, hj⟩
      exact ⟨i, hi, j, hj, rfl, rfl⟩

theorem flmCore_blockOk (pop : Char → Bool) (a b : List Char) :
    BlockOk a b (flmCore pop a b) := by
  have aux : ∀ (l : List (Nat × Nat)) (acc : Nat × Nat × Nat),
      (∀ p ∈ l, p.1 < a.length ∧ p.2 < b.length) → BlockOk a b acc →
      BlockOk a b (l.foldl
        (fun best p =>
          let k := eRun pop a b p.1 p.2
          if best.2.2 < k then (p.1 + 1 - k, p.2 + 1 - k, k) else best)
        acc) := by
    intro l
    induction l with
    | nil => intro acc _ hacc; exact hacc
    | cons p ps ih =>
      intro acc hl hacc
      simp only [List.foldl_cons]
      refine ih _ (fun q hq => hl q (List.mem_cons_of_mem p hq)) ?_
      dsimp only
      by_cases hlt : acc.2.2 < eRun pop a b p.1 p.2
      · rw [if_pos hlt]
        obtain ⟨hp1, hp2⟩ := hl p (List.mem_cons_self p ps)
        obtain ⟨s, t, hs, ht, hblk⟩ := eRun_block pop a b p.1 p.2
        have hs' : p.1 + 1 - eRun pop a b p.1 p.2 = s := by omega
        have ht' : p.2 + 1 - eRun pop a b p.1 p.2 = t := by omega
        rw [hs', ht']
        simp only [BlockOk]
        exact ⟨by omega, by omega, hblk⟩
      · rw [if_neg hlt]
        exact hacc
  refine aux _ _ (fun p hp => allPairs_mem.mp hp) ?_
  simp only [BlockOk]
  exact ⟨by simp, by simp, by omega⟩

theorem foldFlm_k_ge (pop : Char → Bool) (a b : List Char) :
    ∀ (l : List (Nat × Nat)) (acc : Nat × Nat × Nat),
      acc.2.2 ≤ (l.foldl
        (fun best p =>
          let k := eRun pop a b p.1 p.2
          if best.2.2 < k then (p.1 + 1 - k, p.2 + 1 - k, k) else best)
        acc).2.2 ∧
      ∀ p ∈ l, eRun pop a b p.1 p.2 ≤ (l.foldl
        (fun best p =>
          let k := eRun pop a b p.1 p.2
          if best.2.2 < k then (p.1 + 1 - k, p.2 + 1 - k, k) else best)
        acc).2.2 := by
  intro l
  induction l with
  | nil =>
    intro acc
    exact ⟨Nat.le_refl _, fun p hp => absurd hp (List.not_mem_nil p)⟩
  | cons p ps ih =>
    intro acc
    simp only [List.foldl_cons]
    have hstep : acc.2.2 ≤ (if acc.2.2 < eRun pop a b p.1 p.2 then
        (p.1 + 1 - eRun pop a b p.1 p.2, p.2 + 1 - eRun pop a b p.1 p.2,
          eRun pop a b p.1 p.2) else acc).2.2 ∧
        eRun pop a b p.1 p.2 ≤ (if acc.2.2 < eRun pop a b p.1 p.2 then
        (p.1 + 1 - eRun pop a b p.1 p.2, p.2 + 1 - eRun pop a b p.1 p.2,
          eRun pop a b p.1 p.2) else acc).2.2 := by
      by_cases hlt : acc.2.2 < eRun pop a b p.1 p.2
      · rw [if_pos hlt]
        exact ⟨Nat.le_of_lt hlt, Nat.le_refl _⟩
      · rw [if_neg hlt]
        exact ⟨Nat.le_refl _, Nat.le_of_not_lt hlt⟩
    refine ⟨Nat.le_trans hstep.1 (ih _).1, ?_⟩
    intro q hq
    rcases List.mem_cons.mp hq with hq | hq
    · subst hq
      exact Nat.le_trans hstep.2 (ih _).1
    · exact (ih _).2 q hq

theorem extLeft_blockOk (a b : List Char) :
    ∀ i j k, BlockOk a b (i, j, k) → BlockOk a b (extLeft a b i j k) := by
  intro i
  induction i with
  | zero => intro j k h; exact h
  | succ i ih =>
    intro j k h
    cases j with
    | zero => exact h
    | succ j =>
      rw [extLeft]
      cases ha : a[i]? with
      | none => exact h
      | some x =>
        cases hb : b[j]? with
        | none => exact h
        | some y =>
          dsimp only
          by_cases hxy : x = y
          · rw [if_pos hxy]
            refine ih j (k + 1) ?_
            simp only [BlockOk] at h ⊢
            obtain ⟨h1, h2, hblk⟩ := h
            refine ⟨by omega, by omega, ?_⟩
            intro t ht
            cases t with
            | zero =>
              simpa using ha.trans (by rw [hxy, ← hb])
            | succ t =>
              have e1 : i + (t + 1) = i + 1 + t := by omega
              have e2 : j + (t + 1) = j + 1 + t := by omega
              rw [e1, e2]
              exact hblk t (by omega)
          · rw [if_neg hxy]
            exact h

theorem extLeft_k_ge (a b : List Char) :
    ∀ i j k, k ≤ (extLeft a b i j k).2.2 := by
  intro i
  induction i with
  | zero => intro j k; exact Nat.le_refl _
  | succ i ih =>
    intro j k
    cases j with
    | zero => exact Nat.le_refl _
    | succ j =>
      rw [extLeft]
      cases ha : a[i]? with
      | none => exact Nat.le_refl _
      | some x =>
        cases hb : b[j]? with
        | none => exact Nat.le_refl _
        | some y =>
          dsimp only
          by_cases hxy : x = y
          · rw [if_pos hxy]
            exact Nat.le_trans (Nat.le_succ k) (ih j (k + 1))
          · rw [if_neg hxy]

theorem extRight_blockOk (a b : List Char) (i j : Nat) :
    ∀ fuel k, BlockOk a b (i, j, k) → BlockOk a b (i, j, extRight a b i j fuel k) := by
  intro fuel
  induction fuel with
  | zero => intro k h; exact h
  | succ fuel ih =>
    intro k h
    rw [extRight]
    cases ha : a[i + k]? with
    | none => exact h
    | some x =>
      cases hb : b[j + k]? with
      | none => exact h
      | some y =>
        dsimp only
        by_cases hxy : x = y
        · rw [if_pos hxy]
          refine ih (k + 1) ?_
          simp only [BlockOk] at h ⊢
          obtain ⟨h1, h2, hblk⟩ := h
          have hia : i + k < a.length := by
            by_contra hcon
            rw [List.getElem?_eq_none (by omega)] at ha
            exact Option.noConfusion ha
          have hjb : j + k < b.length := by
            by_contra hcon
            rw [List.getElem?_eq_none (by omega)] at hb
            exact Option.noConfusion hb
          refine ⟨by omega, by omega, ?_⟩
          intro t ht
          by_cases ht' : t < k
          · exact hblk t ht'
          · have : t = k := by omega
            subst this
            rw [ha, hb, hxy]
        · rw [if_neg hxy]
          exact h

theorem extRight_k_ge (a b : List Char) (i j : Nat) :
    ∀ fuel k, k ≤ extRight a b i j fuel k := by
  intro fuel
  induction fuel with
  | zero => intro k; exact Nat.le_refl _
  | succ fuel ih =>
    intro k
    rw [extRight]
    cases a[i + k]? with
    | none => exact Nat.le_refl _
    | some x =>
      cases b[j + k]? with
      | none => exact Nat.le_refl _
      | some y =>
        dsimp only
        by_cases hxy : x = y
        · rw [if_pos hxy]
          exact Nat.le_trans (Nat.le_succ k) (ih (k + 1))
        · rw [if_neg hxy]

theorem flm_blockOk (pop : Char → Bool) (a b : List Char) :
    BlockOk a b (flm pop a b) := by
  rw [flm]
  have h0 := flmCore_blockOk pop a b
  have h1 := extLeft_blockOk a b (flmCore pop a b).1 (flmCore pop a b).2.1
    (flmCore pop a b).2.2 (by simpa using h0)
  exact extRight_blockOk a b _ _ a.length _ (by simpa using h1)

theorem flm_k_ge (pop : Char → Bool) (a b : List Char) {i j : Nat}
    (hi : i < a.length) (hj : j < b.length) :
    eRun pop a b i j ≤ (flm pop a b).2.2 := by
  rw [flm]
  have h0 : eRun pop a b i j ≤ (flmCore pop a b).2.2 := by
    rw [flmCore]
    exact (foldFlm_k_ge pop a b _ _).2 (i, j) (allPairs_mem.mpr ⟨hi, hj⟩)
  have h1 := extLeft_k_ge a b (flmCore pop a b).1 (flmCore pop a b).2.1
    (flmCore pop a b).2.2
  have h2 := extRight_k_ge a b
    (extLeft a b (flmCore pop a b).1 (flmCore pop a b).2.1 (flmCore pop a b).2.2).1
    (extLeft a b (flmCore pop a b).1 (flmCore pop a b).2.1 (flmCore pop a b).2.2).2.1
    a.length
    (extLeft a b (flmCore pop a b).1 (flmCore pop a b).2.1 (flmCore pop a b).2.2).2.2
  dsimp only
  omega

/-! ### Size and content bounds on the matched blocks -/

theorem blockOk_take_eq {a b : List Char} {r : Nat × Nat × Nat}
    (h : BlockOk a b r) : (a.drop r.1).take r.2.2 = (b.drop r.2.1).take r.2.2 := by
  obtain ⟨h1, h2, hblk⟩ := h
  apply List.ext_getElem?
  intro n
  by_cases hn : n < r.2.2
  · rw [List.getElem?_take_of_lt hn, List.getElem?_take_of_lt hn,
      List.getElem?_drop, List.getElem?_drop]
    exact hblk n hn
  · have hlen1 : ((a.drop r.1).take r.2.2).length ≤ n := by
      simp only [List.length_take, List.length_drop]
      omega
    have hlen2 : ((b.drop r.2.1).take r.2.2).length ≤ n := by
      simp only [List.length_take, List.length_drop]
      omega
    rw [List.getElem?_eq_none hlen1, List.getElem?_eq_none hlen2]

theorem matchSumF_le_left (pop : Char → Bool) :
    ∀ (fuel : Nat) (a b : List Char), matchSumF pop fuel a b ≤ a.length := by
  intro fuel
  induction fuel with
  | zero => intro a b; exact Nat.zero_le _
  | succ fuel ih =>
    intro a b
    rw [matchSumF]
    by_cases hk : (flm pop a b).2.2 = 0
    · rw [if_pos hk]
      exact Nat.zero_le _
    · rw [if_neg hk]
      obtain ⟨h1, h2, _⟩ := flm_blockOk pop a b
      have e1 := ih (a.take (flm pop a b).1) (b.take (flm pop a b).2.1)
      have e2 := ih (a.drop ((flm pop a b).1 + (flm pop a b).2.2))
        (b.drop ((flm pop a b).2.1 + (flm pop a b).2.2))
      simp only [List.length_take, List.length_drop] at e1 e2
      omega

theorem matchSumF_le_right (pop : Char → Bool) :
    ∀ (fuel : Nat) (a b : List Char), matchSumF pop fuel a b ≤ b.length := by
  intro fuel
  induction fuel with
  | zero => intro a b; exact Nat.zero_le _
  | succ fuel ih =>
    intro a b
    rw [matchSumF]
    by_cases hk : (flm pop a b).2.2 = 0
    · rw [if_pos hk]
      exact Nat.zero_le _
    · rw [if_neg hk]
      obtain ⟨h1, h2, _⟩ := flm_blockOk pop a b
      have e1 := ih (a.take (flm pop a b).1) (b.take (flm pop a b).2.1)
      have e2 := ih (a.drop ((flm pop a b).1 + (flm pop a b).2.2))
        (b.drop ((flm pop a b).2.1 + (flm pop a b).2.2))
      simp only [List.length_take, List.length_drop] at e1 e2
      omega

theorem matchSum_le_left (pop : Char → Bool) (a b : List Char) :
    matchSum pop a b ≤ a.length :=
  matchSumF_le_left pop (a.length + 1) a b

theorem matchSum_le_right (pop : Char → Bool) (a b : List Char) :
    matchSum pop a b ≤ b.length :=
  matchSumF_le_right pop (a.length + 1) a b

theorem matchSumF_full (pop : Char → Bool) :
    ∀ (fuel : Nat) (a b : List Char), a.length < fuel →
      matchSumF pop fuel a b = a.length → matchSumF pop fuel a b = b.length →
      a = b := by
  intro fuel
  induction fuel with
  | zero => intro a b hfuel _ _; omega
  | succ fuel ih =>
    intro a b hfuel hA hB
    rw [matchSumF] at hA hB
    by_cases hk : (flm pop a b).2.2 = 0
    · rw [if_pos hk] at hA hB
      have ha : a = [] := List.length_eq_zero.mp hA.symm
      have hb : b = [] := List.length_eq_zero.mp hB.symm
      rw [ha, hb]
    · rw [if_neg hk] at hA hB
      obtain ⟨hb1, hb2, hblk⟩ := flm_blockOk pop a b
      set i := (flm pop a b).1 with hi
      set j := (flm pop a b).2.1 with hj
      set k := (flm pop a b).2.2 with hkk
      have hS1a := matchSumF_le_left pop fuel (a.take i) (b.take j)
      have hS1b := matchSumF_le_right pop fuel (a.take i) (b.take j)
      have hS2a := matchSumF_le_left pop fuel (a.drop (i + k)) (b.drop (j + k))
      have hS2b := matchSumF_le_right pop fuel (a.drop (i + k)) (b.drop (j + k))
      simp only [List.length_take, List.length_drop] at hS1a hS1b hS2a hS2b
      have hij : i = j := by omega
      have hfuel1 : (a.take i).length < fuel := by
        simp only [List.length_take]
        omega
      have hfuel2 : (a.drop (i + k)).length < fuel := by
        simp only [List.length_drop]
        omega
      have hT1 : a.take i = b.take j := by
        refine ih (a.take i) (b.take j) hfuel1 ?_ ?_
        · simp only [List.length_take]
          omega
        · simp only [List.length_take]
          omega
      have hT2 : a.drop (i + k) = b.drop (j + k) := by
        refine ih (a.drop (i + k)) (b.drop (j + k)) hfuel2 ?_ ?_
        · simp only [List.length_drop]
          omega
        · simp only [List.length_drop]
          omega
      apply List.ext_getElem?
      intro n
      by_cases hn1 : n < i
      · have hthis := congrArg (fun l => l[n]?) hT1
        have hnj : n < j := by omega
        simpa only [List.getElem?_take_of_lt hn1, List.getElem?_take_of_lt hnj]
          using hthis
      · by_cases hn2 : n < i + k
        · have hthis := hblk (n - i) (by omega)
          have hiv : i + (n - i) = n := by omega
          have hjv : j + (n - i) = n := by omega
          rw [hiv, hjv] at hthis
          exact hthis
        · have hthis := congrArg (fun l => l[n - (i + k)]?) hT2
          simp only [List.getElem?_drop] at hthis
          have hiv : i + k + (n - (i + k)) = n := by omega
          have hjv : j + k + (n - (i + k)) = n := by omega
          rw [hiv, hjv] at hthis
          exact hthis

/-! ### The matched multiset: `ratio`'s matches are bounded by the
multiset intersection that `quick_ratio` counts -/

theorem matchMSF_card (pop : Char → Bool) :
    ∀ (fuel : Nat) (a b : List Char),
      Multiset.card (matchMSF pop fuel a b) = matchSumF pop fuel a b := by
  intro fuel
  induction fuel with
  | zero => intro a b; rfl
  | succ fuel ih =>
    intro a b
    rw [matchMSF, matchSumF]
    by_cases hk : (flm pop a b).2.2 = 0
    · rw [if_pos hk, if_pos hk]
      rfl
    · rw [if_neg hk, if_neg hk]
      obtain ⟨h1, h2, _⟩ := flm_blockOk pop a b
      simp only [Multiset.card_add, Multiset.coe_card, List.length_take,
        List.length_drop, ih]
      omega

theorem matchMSF_le_left (pop : Char → Bool) :
    ∀ (fuel : Nat) (a b : List Char), matchMSF pop fuel a b ≤ (a : Multiset Char) := by
  intro fuel
  induction fuel with
  | zero => intro a b; exact Multiset.zero_le _
  | succ fuel ih =>
    intro a b
    rw [matchMSF]
    by_cases hk : (flm pop a b).2.2 = 0
    · rw [if_pos hk]
      exact Multiset.zero_le _
    · rw [if_neg hk]
      have hdecomp :
          a.take (flm pop a b).1 ++
            ((a.drop (flm pop a b).1).take (flm pop a b).2.2 ++
              a.drop ((flm pop a b).1 + (flm pop a b).2.2)) = a := by
        have h1 : a.drop ((flm pop a b).1 + (flm pop a b).2.2) =
            (a.drop (flm pop a b).1).drop (flm pop a b).2.2 := by
          rw [List.drop_drop]
        rw [h1, List.take_append_drop, List.take_append_drop]
      calc matchMSF pop fuel (a.take (flm pop a b).1) (b.take (flm pop a b).2.1) +
            (((a.drop (flm pop a b).1).take (flm pop a b).2.2 : List Char) : Multiset Char) +
            matchMSF pop fuel (a.drop ((flm pop a b).1 + (flm pop a b).2.2))
              (b.drop ((flm pop a b).2.1 + (flm pop a b).2.2))
          ≤ ((a.take (flm pop a b).1 : List Char) : Multiset Char) +
            (((a.drop (flm pop a b).1).take (flm pop a b).2.2 : List Char) : Multiset Char) +
            ((a.drop ((flm pop a b).1 + (flm pop a b).2.2) : List Char) : Multiset Char) := by
            exact add_le_add (add_le_add (ih _ _) (le_refl _)) (ih _ _)
        _ = ((a : List Char) : Multiset Char) := by
            rw [Multiset.coe_add, Multiset.coe_add, List.append_assoc, hdecomp]

theorem matchMSF_le_right (pop : Char → Bool) :
    ∀ (fuel : Nat) (a b : List Char), matchMSF pop fuel a b ≤ (b : Multiset Char) := by
  intro fuel
  induction fuel with
  | zero => intro a b; exact Multiset.zero_le _
  | succ fuel ih =>
    intro a b
    rw [matchMSF]
    by_cases hk : (flm pop a b).2.2 = 0
    · rw [if_pos hk]
      exact Multiset.zero_le _
    · rw [if_neg hk]
      have hmid := blockOk_take_eq (flm_blockOk pop a b)
      have hdecomp :
          b.take (flm pop a b).2.1 ++
            ((b.drop (flm pop a b).2.1).take (flm pop a b).2.2 ++
              b.drop ((flm pop a b).2.1 + (flm pop a b).2.2)) = b := by
        have h1 : b.drop ((flm pop a b).2.1 + (flm pop a b).2.2) =
            (b.drop (flm pop a b).2.1).drop (flm pop a b).2.2 := by
          rw [List.drop_drop]
        rw [h1, List.take_append_drop, List.take_append_drop]
      calc matchMSF pop fuel (a.take (flm pop a b).1) (b.take (flm pop a b).2.1) +
            (((a.drop (flm pop a b).1).take (flm pop a b).2.2 : List Char) : Multiset Char) +
            matchMSF pop fuel (a.drop ((flm pop a b).1 + (flm pop a b).2.2))
              (b.drop ((flm pop a b).2.1 + (flm pop a b).2.2))
          ≤ ((b.take (flm pop a b).2.1 : List Char) : Multiset Char) +
            (((b.drop (flm pop a b).2.1).take (flm pop a b).2.2 : List Char) : Multiset Char) +
            ((b.drop ((flm pop a b).2.1 + (flm pop a b).2.2) : List Char) : Multiset Char) := by
            rw [← hmid]
            exact add_le_add (add_le_add (ih _ _) (le_refl _)) (ih _ _)
        _ = ((b : List Char) : Multiset Char) := by
            rw [Multiset.coe_add, Multiset.coe_add, List.append_assoc, hdecomp]

theorem quickMatches_eq_sum (a b : List Char) :
    quickMatches a b = ∑ c ∈ a.toFinset, min (a.count c) (b.count c) := by
  have hfold : ∀ (l : List Char) (n : Nat),
      l.foldl (fun acc c => acc + min (a.count c) (b.count c)) n =
        n + (l.map (fun c => min (a.count c) (b.count c))).sum := by
    intro l
    induction l with
    | nil => intro n; simp
    | cons c cs ih =>
      intro n
      simp only [List.foldl_cons, List.map_cons, List.sum_cons, ih]
      omega
  have hdf : a.dedup.toFinset = a.toFinset := by
    apply Finset.ext
    intro c
    simp [List.mem_toFinset, List.mem_dedup]
  rw [quickMatches, hfold, Nat.zero_add, ← List.sum_toFinset _ a.nodup_dedup, hdf]

theorem matchSum_le_quickMatches (pop : Char → Bool) (a b : List Char) :
    matchSum pop a b ≤ quickMatches a b := by
  set MS := matchMSF pop (a.length + 1) a b with hMS
  have hcard : Multiset.card MS = matchSum pop a b := matchMSF_card pop (a.length + 1) a b
  have hla : MS ≤ (a : Multiset Char) := matchMSF_le_left pop (a.length + 1) a b
  have hlb : MS ≤ (b : Multiset Char) := matchMSF_le_right pop (a.length + 1) a b
  have hcnta : ∀ c, MS.count c ≤ a.count c := by
    intro c
    have := Multiset.le_iff_count.mp hla c
    simpa [Multiset.coe_count] using this
  have hcntb : ∀ c, MS.count c ≤ b.count c := by
    intro c
    have := Multiset.le_iff_count.mp hlb c
    simpa [Multiset.coe_count] using this
  have hsub : MS.toFinset ⊆ (a : List Char).toFinset := by
    intro c hc
    have hcmem : c ∈ MS := Multiset.mem_toFinset.mp hc
    have : c ∈ (a : Multiset Char) := Multiset.mem_of_le hla hcmem
    exact List.mem_toFinset.mpr (by simpa using this)
  calc matchSum pop a b = Multiset.card MS := hcard.symm
    _ = ∑ c ∈ MS.toFinset, MS.count c := (Multiset.toFinset_sum_count_eq MS).symm
    _ = ∑ c ∈ (a : List Char).toFinset, MS.count c := by
        refine Finset.sum_subset hsub ?_
        intro c _ hnc
        exact Multiset.count_eq_zero.mpr (fun hmem => hnc (Multiset.mem_toFinset.mpr hmem))
    _ ≤ ∑ c ∈ (a : List Char).toFinset, min (a.count c) (b.count c) := by
        refine Finset.sum_le_sum ?_
        intro c _
        exact le_min (hcnta c) (hcntb c)
    _ = quickMatches a b := (quickMatches_eq_sum a b).symm

theorem quickMatches_self (a : List Char) : quickMatches a a = a.length := by
  rw [quickMatches_eq_sum]
  calc ∑ c ∈ a.toFinset, min (a.count c) (a.count c)
      = ∑ c ∈ a.toFinset, a.count c := by
        refine Finset.sum_congr rfl ?_
        intro c _
        exact min_self _
    _ = a.length := List.sum_toFinset_count_eq_length a

/-! ### Ratio arithmetic: the quick ratios are upper bounds, and `1` is
attained exactly on equal strings -/

theorem calcRatio_mono {m m' t : Nat} (h : m ≤ m') : calcRatio m t ≤ calcRatio m' t := by
  rw [calcRatio, calcRatio]
  by_cases ht : t = 0
  · rw [if_pos ht, if_pos ht]
  · rw [if_neg ht, if_neg ht, Rat.divInt_eq_div, Rat.divInt_eq_div]
    have htpos : (0 : ℚ) < (t : Int) := by
      have : 0 < t := Nat.pos_of_ne_zero ht
      push_cast
      exact_mod_cast this
    apply div_le_div_of_nonneg_right ?_ htpos.le
    push_cast
    exact_mod_cast Nat.mul_le_mul_left 2 h

theorem calcRatio_le_one {m t : Nat} (h : 2 * m ≤ t) : calcRatio m t ≤ 1 := by
  rw [calcRatio]
  by_cases ht : t = 0
  · rw [if_pos ht]
  · rw [if_neg ht, Rat.divInt_eq_div]
    have htpos : (0 : ℚ) < ((t : Int) : ℚ) := by
      have : 0 < t := Nat.pos_of_ne_zero ht
      push_cast
      exact_mod_cast this
    rw [div_le_one htpos]
    push_cast
    exact_mod_cast h

theorem calcRatio_self2 (n : Nat) (hn : n ≠ 0) : calcRatio n (n + n) = 1 := by
  rw [calcRatio, if_neg (by omega), Rat.divInt_eq_div]
  have hne : ((↑(n + n) : Int) : ℚ) ≠ 0 := by
    have hpos : (0 : ℚ) < (n : ℚ) := by
      exact_mod_cast Nat.pos_of_ne_zero hn
    push_cast
    intro hc
    linarith
  rw [div_eq_one_iff_eq hne]
  push_cast
  ring

theorem calcRatio_eq_one {m t : Nat} (ht : t ≠ 0) (h : calcRatio m t = 1) :
    2 * m = t := by
  rw [calcRatio, if_neg ht, Rat.divInt_eq_div] at h
  have hne : ((t : Int) : ℚ) ≠ 0 := by
    push_cast
    exact_mod_cast Nat.cast_ne_zero.mpr ht
  rw [div_eq_one_iff_eq hne] at h
  have h' : ((2 * m : Nat) : ℚ) = ((t : Nat) : ℚ) := by
    push_cast at h ⊢
    linarith [h]
  exact_mod_cast h'

theorem ratio_le_one (pop : Char → Bool) (a b : List Char) : ratio pop a b ≤ 1 := by
  rw [ratio]
  apply calcRatio_le_one
  have h1 := matchSum_le_left pop a b
  have h2 := matchSum_le_right pop a b
  omega

theorem ratio_le_quick_ratio (pop : Char → Bool) (a b : List Char) :
    ratio pop a b ≤ quick_ratio a b := by
  rw [ratio, quick_ratio]
  exact calcRatio_mono (matchSum_le_quickMatches pop a b)

theorem ratio_le_real_quick_ratio (pop : Char → Bool) (a b : List Char) :
    ratio pop a b ≤ real_quick_ratio a b := by
  rw [ratio, real_quick_ratio]
  exact calcRatio_mono (le_min (matchSum_le_left pop a b) (matchSum_le_right pop a b))

theorem ratio_eq_one_imp (pop : Char → Bool) (a b : List Char)
    (h : ratio pop a b = 1) : a = b := by
  rw [ratio] at h
  by_cases ht : a.length + b.length = 0
  · have ha : a = [] := List.length_eq_zero.mp (by omega)
    have hb : b = [] := List.length_eq_zero.mp (by omega)
    rw [ha, hb]
  · have h2 := calcRatio_eq_one ht h
    have h1 := matchSum_le_left pop a b
    have h3 := matchSum_le_right pop a b
    refine matchSumF_full pop (a.length + 1) a b (by omega) ?_ ?_
    · rw [matchSum] at h2 h1 h3
      omega
    · rw [matchSum] at h2 h1 h3
      omega

theorem ratio_lt_one_of_ne (pop : Char → Bool) {a b : List Char} (h : a ≠ b) :
    ratio pop a b < 1 :=
  lt_of_le_of_ne (ratio_le_one pop a b) (fun hc => h (ratio_eq_one_imp pop a b hc))

theorem matchSumF_nil (pop : Char → Bool) :
    ∀ (fuel : Nat) (b : List Char), matchSumF pop fuel [] b = 0 := by
  intro fuel b
  cases fuel with
  | zero => rfl
  | succ fuel =>
    rw [matchSumF]
    have hflm : flm pop [] b = (0, 0, 0) := rfl
    rw [hflm]
    simp

theorem eRun_self_diag (a : List Char) :
    ∀ i, i < a.length → eRun (fun _ => false) a a i i = i + 1 := by
  intro i
  induction i with
  | zero =>
    intro hi
    have hx : a[0]? = some a[0] := List.getElem?_eq_some_iff.mpr ⟨hi, rfl⟩
    rw [eRun, hx]
    simp
  | succ i ih =>
    intro hi
    have hx : a[i + 1]? = some a[i + 1] := List.getElem?_eq_some_iff.mpr ⟨hi, rfl⟩
    rw [eRun, hx]
    simp only [Option.some.injEq]
    rw [ih (by omega)]
    simp

theorem matchSum_self (a : List Char) : matchSum (fun _ => false) a a = a.length := by
  by_cases hlen : a.length = 0
  · have ha : a = [] := List.length_eq_zero.mp hlen
    rw [ha]
    rfl
  · have hk_ge : a.length ≤ (flm (fun _ => false) a a).2.2 := by
      have h1 := flm_k_ge (fun _ => false) a a (i := a.length - 1) (j := a.length - 1)
        (by omega) (by omega)
      have h2 := eRun_self_diag a (a.length - 1) (by omega)
      omega
    obtain ⟨hb1, hb2, _⟩ := flm_blockOk (fun _ => false) a a
    have hk : (flm (fun _ => false) a a).2.2 = a.length := by omega
    have hi : (flm (fun _ => false) a a).1 = 0 := by omega
    have hj : (flm (fun _ => false) a a).2.1 = 0 := by omega
    rw [matchSum, matchSumF, if_neg (by omega), hi, hj, hk, Nat.zero_add,
      List.drop_length, List.take_zero, matchSumF_nil]
    omega

theorem ratio_self (a : List Char) : ratio (fun _ => false) a a = 1 := by
  rw [ratio, matchSum_self]
  by_cases ha : a.length = 0
  · rw [calcRatio, if_pos (by omega)]
  · exact calcRatio_self2 a.length ha

theorem quick_ratio_self (a : List Char) : quick_ratio a a = 1 := by
  rw [quick_ratio, quickMatches_self]
  by_cases ha : a.length = 0
  · rw [calcRatio, if_pos (by omega)]
  · exact calcRatio_self2 a.length ha

theorem real_quick_ratio_self (a : List Char) : real_quick_ratio a a = 1 := by
  rw [real_quick_ratio, Nat.min_self]
  by_cases ha : a.length = 0
  · rw [calcRatio, if_pos (by omega)]
  · exact calcRatio_self2 a.length ha

/-! ### Specification of `get_close_matches_one` -/

theorem bpopular_short {b : List Char} (h : b.length < 200) :
    bpopular b = fun _ => false := by
  rw [bpopular, if_pos h]

/-- The three-stage cutoff filter of `get_close_matches` accepts a candidate
exactly when its true `ratio` clears the cutoff (the quick ratios are upper
bounds). -/
theorem gcm_filter_iff (word : String) (cutoff : ℚ) (x : String) :
    (decide (cutoff ≤ real_quick_ratio x.data word.data) &&
      decide (cutoff ≤ quick_ratio x.data word.data) &&
      decide (cutoff ≤ ratio (bpopular word.data) x.data word.data)) = true ↔
    cutoff ≤ ratio (bpopular word.data) x.data word.data := by
  simp only [Bool.and_eq_true, decide_eq_true_eq]
  constructor
  · rintro ⟨_, h⟩
    exact h
  · intro h
    exact ⟨⟨le_trans h (ratio_le_real_quick_ratio _ _ _),
      le_trans h (ratio_le_quick_ratio _ _ _)⟩, h⟩

theorem gcm_some_spec {word : String} {poss : List String} {cutoff : ℚ} {m : String}
    (h : get_close_matches_one word poss cutoff = some m) :
    m ∈ poss ∧ cutoff ≤ ratio (bpopular word.data) m.data word.data ∧
      ∀ x ∈ poss, cutoff ≤ ratio (bpopular word.data) x.data word.data →
        ratio (bpopular word.data) x.data word.data <
            ratio (bpopular word.data) m.data word.data ∨
          (ratio (bpopular word.data) x.data word.data =
              ratio (bpopular word.data) m.data word.data ∧
            (x = m ∨ pyStrLt x.data m.data = true)) := by
  rw [get_close_matches_one] at h
  simp only [Option.map_eq_some'] at h
  obtain ⟨p, hp, hpm⟩ := h
  have hmem := pyMax_mem hp
  simp only [List.mem_map, List.mem_filter] at hmem
  obtain ⟨x₀, ⟨hx₀poss, hx₀pass⟩, hx₀eq⟩ := hmem
  have hx₀m : x₀ = m := by rw [← hpm, ← hx₀eq]
  rw [hx₀m] at hx₀poss hx₀pass hx₀eq
  have hpval : p = (ratio (bpopular word.data) m.data word.data, m) := hx₀eq.symm
  refine ⟨hx₀poss, (gcm_filter_iff word cutoff m).mp hx₀pass, ?_⟩
  intro x hx hxr
  have hxmem : (ratio (bpopular word.data) x.data word.data, x) ∈
      (poss.filter (fun x => decide (cutoff ≤ real_quick_ratio x.data word.data) &&
        decide (cutoff ≤ quick_ratio x.data word.data) &&
        decide (cutoff ≤ ratio (bpopular word.data) x.data word.data))).map
        (fun x => (ratio (bpopular word.data) x.data word.data, x)) := by
    simp only [List.mem_map, List.mem_filter]
    exact ⟨x, ⟨hx, (gcm_filter_iff word cutoff x).mpr hxr⟩, rfl⟩
  have hnotlt := pyMax_not_lt hp _ hxmem
  rw [hpval] at hnotlt
  simp only [pyTupleLt, Bool.or_eq_false_iff, Bool.and_eq_false_iff,
    decide_eq_false_iff_not, not_lt] at hnotlt
  obtain ⟨hle, hor⟩ := hnotlt
  rcases lt_or_eq_of_le hle with hlt | heq
  · exact Or.inl hlt
  · refine Or.inr ⟨heq, ?_⟩
    rcases hor with hor | hor
    · exact absurd heq.symm hor
    · by_cases hxm : x = m
      · exact Or.inl hxm
      · have hd : x.data ≠ m.data := fun hc => hxm (string_data_inj hc)
        rcases pyStrLt_connex hd with hs | hs
        · exact Or.inr hs
        · rw [hs] at hor
          exact absurd hor (by simp)

theorem gcm_none_iff {word : String} {poss : List String} {cutoff : ℚ} :
    get_close_matches_one word poss cutoff = none ↔
      ∀ x ∈ poss, ¬ cutoff ≤ ratio (bpopular word.data) x.data word.data := by
  rw [get_close_matches_one]
  simp only [Option.map_eq_none', pyMax_eq_none_iff, List.map_eq_nil_iff,
    List.filter_eq_nil_iff]
  constructor
  · intro h x hx hc
    exact h x hx ((gcm_filter_iff word cutoff x).mpr hc)
  · intro h x hx hc
    exact h x hx ((gcm_filter_iff word cutoff x).mp hc)

theorem gcm_self {word : String} {poss : List String} {cutoff : ℚ}
    (hmem : word ∈ poss) (hlen : word.data.length < 200) (hcut : cutoff ≤ 1) :
    get_close_matches_one word poss cutoff = some word := by
  have hpop := bpopular_short hlen
  rw [get_close_matches_one]
  have hpassw : (decide (cutoff ≤ real_quick_ratio word.data word.data) &&
      decide (cutoff ≤ quick_ratio word.data word.data) &&
      decide (cutoff ≤ ratio (bpopular word.data) word.data word.data)) = true := by
    apply (gcm_filter_iff word cutoff word).mpr
    rw [hpop, ratio_self]
    exact hcut
  have hz : (ratio (bpopular word.data) word.data word.data, word) ∈
      (poss.filter (fun x => decide (cutoff ≤ real_quick_ratio x.data word.data) &&
        decide (cutoff ≤ quick_ratio x.data word.data) &&
        decide (cutoff ≤ ratio (bpopular word.data) x.data word.data))).map
        (fun x => (ratio (bpopular word.data) x.data word.data, x)) := by
    simp only [List.mem_map, List.mem_filter]
    exact ⟨word, ⟨hmem, hpassw⟩, rfl⟩
  have hmax := pyMax_eq_of_greatest hz ?_
  · rw [hmax]
    rfl
  · intro y hy hne
    simp only [List.mem_map, List.mem_filter] at hy
    obtain ⟨x, ⟨hxposs, hxpass⟩, hxeq⟩ := hy
    have hxw : x ≠ word := by
      intro hc
      apply hne
      rw [← hxeq, hc]
    have hxd : x.data ≠ word.data := fun hc => hxw (string_data_inj hc)
    have hlt : ratio (fun _ => false) x.data word.data < 1 :=
      ratio_lt_one_of_ne _ hxd
    rw [← hxeq]
    simp only [pyTupleLt, Bool.or_eq_true, decide_eq_true_eq]
    left
    rw [hpop, ratio_self]
    exact hlt

/-! ### Python dict lemmas -/

theorem pyDictInsert_mem {α : Type} {d : List (String × α)} {k : String} {v : α}
    {p : String × α} (h : p ∈ pyDictInsert d k v) : p ∈ d ∨ p = (k, v) := by
  rw [pyDictInsert] at h
  by_cases hc : d.any (fun p => p.1 = k)
  · rw [if_pos hc] at h
    simp only [List.mem_map] at h
    obtain ⟨q, hq, hqe⟩ := h
    by_cases hqk : q.1 = k
    · rw [if_pos hqk] at hqe
      exact Or.inr hqe.symm
    · rw [if_neg hqk] at hqe
      exact Or.inl (hqe ▸ hq)
  · rw [if_neg hc] at h
    rcases List.mem_append.mp h with h | h
    · exact Or.inl h
    · exact Or.inr (List.mem_singleton.mp h)

theorem pyDict_mem {α : Type} {xs : List (String × α)} {p : String × α}
    (h : p ∈ pyDict xs) : p ∈ xs := by
  have aux : ∀ (l acc : List (String × α)), p ∈ l.foldl (fun d q => pyDictInsert d q.1 q.2) acc →
      p ∈ acc ∨ p ∈ l := by
    intro l
    induction l with
    | nil => intro acc h; exact Or.inl h
    | cons q qs ih =>
      intro acc h
      simp only [List.foldl_cons] at h
      rcases ih _ h with h' | h'
      · rcases pyDictInsert_mem h' with h'' | h''
        · exact Or.inl h''
        · exact Or.inr (by rw [h'']; exact List.mem_cons_self q qs)
      · exact Or.inr (List.mem_cons_of_mem q h')
  rcases aux xs [] h with h' | h'
  · exact absurd h' (List.not_mem_nil p)
  · exact h'

theorem pyDictInsert_fresh {α : Type} {d : List (String × α)} {k : String} {v : α}
    (h : ∀ p ∈ d, p.1 ≠ k) : pyDictInsert d k v = d ++ [(k, v)] := by
  rw [pyDictInsert, if_neg]
  simp only [List.any_eq_true, decide_eq_true_eq, not_exists]
  intro p
  intro hp
  exact h p hp.1 hp.2

theorem pyDict_of_nodup {α : Type} {xs : List (String × α)}
    (h : (xs.map Prod.fst).Nodup) : pyDict xs = xs := by
  have aux : ∀ (l acc : List (String × α)), ((acc ++ l).map Prod.fst).Nodup →
      l.foldl (fun d q => pyDictInsert d q.1 q.2) acc = acc ++ l := by
    intro l
    induction l with
    | nil => intro acc _; simp
    | cons q qs ih =>
      intro acc hnd
      simp only [List.foldl_cons]
      have hfresh : ∀ p ∈ acc, p.1 ≠ q.1 := by
        intro p hp hc
        have h1 : (acc ++ q :: qs).map Prod.fst =
            acc.map Prod.fst ++ q.1 :: qs.map Prod.fst := by simp
        rw [h1] at hnd
        have h3 : q.1 ∈ acc.map Prod.fst := List.mem_map.mpr ⟨p, hp, hc⟩
        have h4 := (List.nodup_append.mp hnd).2.2
        exact h4 h3 (List.mem_cons_self _ _)
      rw [pyDictInsert_fresh hfresh]
      have hnd' : ((acc ++ [q] ++ qs).map Prod.fst).Nodup := by
        simpa using hnd
      rw [ih (acc ++ [q]) hnd']
      simp
  have haux := aux xs [] (by rw [List.nil_append]; exact h)
  rw [List.nil_append] at haux
  exact haux

theorem keys_inj_of_nodup {α : Type} {xs : List (String × α)}
    (h : (xs.map Prod.fst).Nodup) {p q : String × α}
    (hp : p ∈ xs) (hq : q ∈ xs) (hk : p.1 = q.1) : p = q :=
  List.inj_on_of_nodup_map h hp hq hk

/-! ### Claim theorems -/

/-- C6 counterexample: a list entry `{"name": "a"}` that has a `name` but
lacks only `value` — so it does not "lack both" — is nevertheless discarded
by `_normalize_ai_attributes`, while an entry with both keys is kept. -/
theorem C6_counterexample_value_only_entry_dropped :
    normalize_ai_attributes (RawAttrs.list [RawItem.record (some "a") none]) = [] ∧
    normalize_ai_attributes
      (RawAttrs.list [RawItem.record (some "a") (some "b")]) = [⟨"a", "b"⟩] := by
  exact ⟨rfl, rfl⟩

/-- C6 (amended): a name-to-value dict and the corresponding list of
`{name, value}` records normalize to the same canonical `AIAttr` list, and
a list payload keeps exactly those record entries that have both a `name`
and a `value` key (entries lacking either, or non-record entries, are
discarded), preserving order. -/
theorem C6_normalization_amended (pairs : List (String × String)) (items : List RawItem) :
    normalize_ai_attributes (RawAttrs.dict pairs) =
      normalize_ai_attributes
        (RawAttrs.list (pairs.map (fun p => RawItem.record (some p.1) (some p.2)))) ∧
    normalize_ai_attributes (RawAttrs.list items) =
      (items.filter (fun it =>
          match it with
          | RawItem.record (some _) (some _) => true
          | _ => false)).map
        (fun it =>
          match it with
          | RawItem.record (some n) (some v) => (⟨n, v⟩ : AIAttr)
          | _ => ⟨"", ""⟩) := by
  constructor
  · induction pairs with
    | nil => rfl
    | cons p ps ih =>
      simp only [normalize_ai_attributes, List.map_cons, List.filterMap_cons] at ih ⊢
      rw [ih]
  · induction items with
    | nil => rfl
    | cons it its ih =>
      cases it with
      | other =>
        simpa only [normalize_ai_attributes, List.filterMap_cons, List.filter_cons]
          using ih
      | record n v =>
        cases n with
        | none =>
          simpa only [normalize_ai_attributes, List.filterMap_cons, List.filter_cons]
            using ih
        | some n' =>
          cases v with
          | none =>
            simpa only [normalize_ai_attributes, List.filterMap_cons, List.filter_cons]
              using ih
          | some v' =>
            simp only [normalize_ai_attributes, List.filterMap_cons,
              List.filter_cons] at ih ⊢
            rw [ih]
            rfl

/-- C7: `missing_required` returns exactly the required schema keys absent
from the provided attributes' keys, in schema-declared order (it is a
sublist of the schema's key sequence), and is empty precisely when every
required key is provided. -/
theorem C7_missing_required_spec (schema : List MpAttr) (mapped : List MappedAttr) :
    missing_required schema mapped =
      ((schema.filter (fun a => a.required)).map (fun a => a.key)).filter
        (fun k => ¬ k ∈ mapped.map (fun m => m.key)) ∧
    (missing_required schema mapped).Sublist (schema.map (fun a => a.key)) ∧
    (missing_required schema mapped = [] ↔
      ∀ a ∈ schema, a.required = true → a.key ∈ mapped.map (fun m => m.key)) := by
  have hcomm : ∀ (l : List MpAttr),
      (l.filter (fun a => ¬ a.key ∈ mapped.map (fun m => m.key))).map (fun a => a.key) =
        (l.map (fun a => a.key)).filter (fun k => ¬ k ∈ mapped.map (fun m => m.key)) := by
    intro l
    induction l with
    | nil => rfl
    | cons a as ih =>
      by_cases hmem : a.key ∈ mapped.map (fun m => m.key)
      · have hpa : (decide (¬ a.key ∈ mapped.map (fun m => m.key))) = false := by
          simpa using hmem
        simp only [List.map_cons, List.filter_cons, hpa, Bool.false_eq_true,
          if_false, ih]
      · have hpa : (decide (¬ a.key ∈ mapped.map (fun m => m.key))) = true := by
          simpa using hmem
        simp only [List.map_cons, List.filter_cons, hpa, if_true, List.map_cons, ih]
  refine ⟨hcomm (schema.filter (fun a => a.required)), ?_, ?_⟩
  · rw [missing_required]
    exact List.Sublist.map (fun a : MpAttr => a.key)
      (List.Sublist.trans (List.filter_sublist _) (List.filter_sublist _))
  · rw [missing_required]
    simp only [List.map_eq_nil_iff, List.filter_eq_nil_iff, List.mem_filter,
      decide_eq_true_eq, and_imp]
    constructor
    · intro h a ha hreq
      by_contra hc
      exact (h a ha (by rw [hreq])) hc
    · intro h a ha hreq hc
      exact hc (h a ha (by simpa using hreq))

/-- C8 counterexample: with sanitized estimate 1 the bidding model has
`minimalBid = 1 = askingPrice`, violating `minimalBid < askingPrice`; and
with estimate 30 the code computes `minimalBid = max(1, int(30 * 0.05)) = 1`
while the claimed formula `max(1, round(30 * 0.05))` gives 2 (the code
truncates instead of rounding). -/
theorem C8_counterexample_minimal_bid :
    (build_price_model (sanitize_estimate (some 1)) "bidding").askingPrice = 1 ∧
    (build_price_model (sanitize_estimate (some 1)) "bidding").minimalBid = some 1 ∧
    ¬ ((1 : Int) < 1) ∧
    (build_price_model (sanitize_estimate (some 30)) "bidding").minimalBid = some 1 ∧
    max 1 (round ((30 : ℚ) * (1 / 20))) = 2 := by
  refine ⟨rfl, rfl, by omega, rfl, by norm_num [round_eq]⟩

/-- C8 (amended): for every bidding price model built from a present
sanitized estimate, `minimalBid = max(1, ⌊askingPrice * 0.05⌋)` (truncating
division, exactly `askingPrice / 20` on the sanitized range), and
`1 ≤ minimalBid ≤ askingPrice`, with strict inequality
`minimalBid < askingPrice` whenever `askingPrice ≥ 2` (at `askingPrice = 1`
the two are equal). -/
theorem C8_bidding_model_amended (e : Int) :
    (build_price_model (sanitize_estimate (some e)) "bidding").modelType = "bidding" ∧
    (build_price_model (sanitize_estimate (some e)) "bidding").minimalBid =
      some (max 1 ((build_price_model (sanitize_estimate (some e)) "bidding").askingPrice / 20)) ∧
    1 ≤ max 1 ((build_price_model (sanitize_estimate (some e)) "bidding").askingPrice / 20) ∧
    max 1 ((build_price_model (sanitize_estimate (some e)) "bidding").askingPrice / 20) ≤
      (build_price_model (sanitize_estimate (some e)) "bidding").askingPrice ∧
    (2 ≤ (build_price_model (sanitize_estimate (some e)) "bidding").askingPrice →
      max 1 ((build_price_model (sanitize_estimate (some e)) "bidding").askingPrice / 20) <
        (build_price_model (sanitize_estimate (some e)) "bidding").askingPrice) := by
  rw [sanitize_estimate, build_price_model]
  rw [if_pos rfl]
  dsimp only
  refine ⟨rfl, rfl, ?_, ?_, ?_⟩
  · omega
  · omega
  · intro h
    omega

/-- C9: a present integer estimate is clamped into `[1, 50000]` (estimate
60000 sanitizes to 50000); a present range has both bounds clamped into
`[1, 50000]` and is swapped when `min > max` after clamping, so the result
always satisfies `1 ≤ min ≤ max ≤ 50000` (range `{min: 200, max: 100}`
sanitizes to `{min: 100, max: 200}`). -/
theorem C9_price_sanitization (e lo hi : Int) :
    sanitize_estimate (some e) = some (max 1 (min 50000 e)) ∧
    (∀ v, sanitize_estimate (some e) = some v → 1 ≤ v ∧ v ≤ 50000) ∧
    (∃ p : Int × Int, sanitize_range (RawRange.range lo hi) = some p ∧
      1 ≤ p.1 ∧ p.1 ≤ p.2 ∧ p.2 ≤ 50000) ∧
    sanitize_estimate (some 60000) = some 50000 ∧
    sanitize_range (RawRange.range 200 100) = some (100, 200) := by
  refine ⟨rfl, ?_, ?_, rfl, rfl⟩
  · intro v hv
    rw [sanitize_estimate] at hv
    have h2 : max 1 (min 50000 e) = v := by
      simpa using hv
    omega
  · rw [sanitize_range]
    by_cases hc : max 1 (min 50000 hi) < max 1 (min 50000 lo)
    · rw [if_pos hc]
      exact ⟨_, rfl, by constructor <;> [omega; constructor <;> omega]⟩
    · rw [if_neg hc]
      exact ⟨_, rfl, by constructor <;> [omega; constructor <;> omega]⟩

set_option maxRecDepth 200000 in
/-- C5 (code bug): the vector-candidate branch of
`generate_listing_lambda.lambda_handler` is inverted.  With a flat list
containing categories `X` (id 1) and `A > B` (id 11): supplying candidate
id 1 (which exists in the list) does not return id 1 directly — the handler
discards it and re-resolves the suggested text `"A > B"` by fuzzy matching,
yielding id 11; and supplying candidate id 99 (absent from the list)
returns the "Could not find category" error without ever falling back to
fuzzy text matching, even though `"A > B"` would match. -/
theorem C5_vector_candidate_divergence :
    resolve_listing_category (some 1) "A > B"
      [⟨"X", 1⟩, ⟨"A > B", 11⟩] = CategoryStepResult.ok "A > B" 11 ∧
    resolve_listing_category (some 99) "A > B"
      [⟨"X", 1⟩, ⟨"A > B", 11⟩] =
      CategoryStepResult.errCouldNotFind (some 99) "A > B" ∧
    match_category_name "A > B" [⟨"X", 1⟩, ⟨"A > B", 11⟩] = some ("A > B", 11) := by
  refine ⟨by decide, by decide, by decide⟩

set_option maxRecDepth 200000 in
/-- C10: the mapper processes normalized attributes independently and in
input order, emitting at most one mapped attribute per input and performing
no deduplication by key: with a schema whose single entry has label
`"Conditie"` (key `"conditie"`, non-enum), the two distinct raw names
`"Conditie"` and `"conditie"` both fuzzy-match that label at cutoff 0.6 and
the output contains two `MappedAttr`s with the same key, in input order. -/
theorem C10_no_dedup_same_key :
    (∀ (raw : RawAttrs) (mp : List MpAttr),
      (map_ai_attributes_to_marktplaats raw mp).length ≤
        (normalize_ai_attributes raw).length) ∧
    "Conditie" ≠ "conditie" ∧
    map_ai_attributes_to_marktplaats
      (RawAttrs.dict [("Conditie", "nieuw"), ("conditie", "gebruikt")])
      [⟨"conditie", some "Conditie", none, none, false⟩] =
      [⟨"conditie", "nieuw"⟩, ⟨"conditie", "gebruikt"⟩] := by
  refine ⟨?_, by decide, by decide⟩
  intro raw mp
  rw [map_ai_attributes_to_marktplaats]
  exact List.length_filterMap_le _ _

/-! ### Split and join round-trip -/

theorem stripSepPre_some : ∀ {sep l rest : List Char},
    stripSepPre sep l = some rest → l = sep ++ rest := by
  intro sep
  induction sep with
  | nil =>
    intro l rest h
    rw [stripSepPre] at h
    simpa using h
  | cons s ss ih =>
    intro l rest h
    cases l with
    | nil => exact absurd h (by rw [stripSepPre]; simp)
    | cons x xs =>
      rw [stripSepPre] at h
      by_cases hxs : x = s
      · rw [if_pos hxs] at h
        have := ih h
        rw [List.cons_append, ← this, hxs]
      · rw [if_neg hxs] at h
        exact absurd h (by simp)

theorem splitOnSepF_ne_nil (c : Char) (cs : List Char) :
    ∀ (fuel : Nat) (l : List Char), splitOnSepF c cs fuel l ≠ [] := by
  intro fuel
  induction fuel with
  | zero => intro l; rw [splitOnSepF]; simp
  | succ fuel ih =>
    intro l
    cases l with
    | nil => rw [splitOnSepF]; simp
    | cons x xs =>
      rw [splitOnSepF]
      cases hstrip : stripSepPre (c :: cs) (x :: xs) with
      | some rest => simp
      | none =>
        cases hsp : splitOnSepF c cs fuel xs with
        | nil => simp
        | cons g gs => simp

theorem joinCharGroups_cons_cons (sep : List Char) (x : Char) (g : List Char)
    (gs : List (List Char)) :
    joinCharGroups sep ((x :: g) :: gs) = x :: joinCharGroups sep (g :: gs) := by
  cases gs with
  | nil => rfl
  | cons g' rest => rfl

theorem splitOnSepF_join (c : Char) (cs : List Char) :
    ∀ (fuel : Nat) (l : List Char), l.length < fuel →
      joinCharGroups (c :: cs) (splitOnSepF c cs fuel l) = l := by
  intro fuel
  induction fuel with
  | zero => intro l h; omega
  | succ fuel ih =>
    intro l hl
    cases l with
    | nil => rw [splitOnSepF]; rfl
    | cons x xs =>
      rw [splitOnSepF]
      cases hstrip : stripSepPre (c :: cs) (x :: xs) with
      | some rest =>
        dsimp only
        have hxl := stripSepPre_some hstrip
        have hrest : rest.length < fuel := by
          have hlen : (x :: xs).length = (c :: cs).length + rest.length := by
            rw [hxl, List.length_append]
          simp only [List.length_cons] at hlen hl
          omega
        cases hsp : splitOnSepF c cs fuel rest with
        | nil => exact absurd hsp (splitOnSepF_ne_nil c cs fuel rest)
        | cons g gs =>
          have hje : joinCharGroups (c :: cs) ([] :: g :: gs) =
              ([] : List Char) ++ (c :: cs) ++ joinCharGroups (c :: cs) (g :: gs) := rfl
          rw [hje]
          have hjoin := ih rest hrest
          rw [hsp] at hjoin
          rw [List.nil_append, hjoin, hxl]
      | none =>
        dsimp only
        cases hsp : splitOnSepF c cs fuel xs with
        | nil => exact absurd hsp (splitOnSepF_ne_nil c cs fuel xs)
        | cons g gs =>
          have hjoin := ih xs (by simp only [List.length_cons] at hl; omega)
          rw [hsp] at hjoin
          rw [joinCharGroups_cons_cons, hjoin]

/-- For a path splitting into exactly two `" > "` segments, the path is the
first segment, the separator, then the second segment. -/
theorem pySplit_two_segments {s p0 p1 : String}
    (h : pySplit (" > ") s = [p0, p1]) : s = p0 ++ " > " ++ p1 := by
  have hs : pySplit (" > ") s =
      (splitOnSepF (' ') ['>', ' '] (s.data.length + 1) s.data).map
        (fun l => (⟨l⟩ : String)) := rfl
  rw [hs] at h
  cases hsp : splitOnSepF (' ') ['>', ' '] (s.data.length + 1) s.data with
  | nil => exact absurd hsp (splitOnSepF_ne_nil _ _ _ _)
  | cons g gs =>
    rw [hsp] at h
    cases gs with
    | nil => simp at h
    | cons g' rest =>
      cases rest with
      | cons _ _ => simp at h
      | nil =>
        simp only [List.map_cons, List.map_nil, List.cons.injEq, and_true] at h
        obtain ⟨h0, h1⟩ := h
        have hjoin := splitOnSepF_join (' ') ['>', ' '] (s.data.length + 1) s.data
          (by omega)
        rw [hsp] at hjoin
        have hje : joinCharGroups (' ' :: ['>', ' ']) [g, g'] =
            g ++ (' ' :: ['>', ' ']) ++ g' := rfl
        rw [hje] at hjoin
        apply string_data_inj
        rw [← hjoin, ← h0, ← h1]
        rfl

/-- C4: for every category id present in the flattened list (resolving to
entry `c`), `fetch_category_attributes` fails with the `NotApplicable`-style
`ValueError` exactly when `c`'s path does not split into two `" > "`
segments (its level is not 2); when it succeeds it has located a level-1
parent entry whose name is the first segment of `c`'s path — a strict
prefix of it (`c.name = parent.name ++ " > " ++ rest`) — and queried the
external attribute source with `(parent.id, category_id)`; and every error
is a typed `Except.error` that the calling lambda catches, mapping the
attribute step to the empty list rather than failing. -/
theorem C4_not_applicable_iff_level (fetchFields : Int → Int → List MpAttr)
    (flat : List FlatCat) (category_id : Int) (c : FlatCat) (raw : RawAttrs)
    (hfind : flat.find? (fun x => x.id = category_id) = some c) :
    ((∃ nm lvl, fetch_category_attributes fetchFields category_id flat =
        Except.error (FetchError.notApplicable nm lvl)) ↔
      (pySplit (" > ") c.name).length ≠ 2) ∧
    (∀ fields,
      fetch_category_attributes fetchFields category_id flat = Except.ok fields →
      ∃ parent ∈ flat, parent.name = (pySplit (" > ") c.name).headD "" ∧
        (pySplit (" > ") parent.name).length = 1 ∧
        (∃ rest, c.name = parent.name ++ " > " ++ rest) ∧
        fields = fetchFields parent.id category_id) ∧
    (∀ e, fetch_category_attributes fetchFields category_id flat = Except.error e →
      listing_mapped_attributes fetchFields category_id flat raw = []) := by
  have hfetch : fetch_category_attributes fetchFields category_id flat =
      (if (pySplit (" > ") c.name).length ≠ 2 then
        Except.error (FetchError.notApplicable c.name (pySplit (" > ") c.name).length)
      else
        match flat.find? (fun x => x.name = ((pySplit (" > ") c.name).headD "") ∧
            (pySplit (" > ") x.name).length = 1) with
        | none => Except.error (FetchError.parentNotFound
            ((pySplit (" > ") c.name).headD ""))
        | some parent_category => Except.ok (fetchFields parent_category.id category_id)) := by
    rw [fetch_category_attributes, hfind]
  refine ⟨?_, ?_, ?_⟩
  · constructor
    · rintro ⟨nm, lvl, herr⟩
      rw [hfetch] at herr
      by_cases hlen : (pySplit (" > ") c.name).length ≠ 2
      · exact hlen
      · rw [if_neg hlen] at herr
        cases hpar : flat.find? (fun x => x.name = ((pySplit (" > ") c.name).headD "") ∧
            (pySplit (" > ") x.name).length = 1) with
        | none =>
          rw [hpar] at herr
          simp at herr
        | some parent =>
          rw [hpar] at herr
          simp at herr
    · intro hlen
      exact ⟨c.name, (pySplit (" > ") c.name).length, by rw [hfetch, if_pos hlen]⟩
  · intro fields hok
    rw [hfetch] at hok
    by_cases hlen : (pySplit (" > ") c.name).length ≠ 2
    · rw [if_pos hlen] at hok
      exact absurd hok (by simp)
    · rw [if_neg hlen] at hok
      cases hpar : flat.find? (fun x => x.name = ((pySplit (" > ") c.name).headD "") ∧
          (pySplit (" > ") x.name).length = 1) with
      | none =>
        rw [hpar] at hok
        exact absurd hok (by simp)
      | some parent =>
        rw [hpar] at hok
        simp only [Except.ok.injEq] at hok
        have hmem := List.mem_of_find?_eq_some hpar
        have hpred := List.find?_some hpar
        simp only [decide_eq_true_eq] at hpred
        refine ⟨parent, hmem, hpred.1, hpred.2, ?_, hok.symm⟩
        have h2 : (pySplit (" > ") c.name).length = 2 := by omega
        obtain ⟨p0, p1, hsplit⟩ : ∃ p0 p1, pySplit (" > ") c.name = [p0, p1] := by
          cases hps : pySplit (" > ") c.name with
          | nil => rw [hps] at h2; simp at h2
          | cons q qs =>
            cases qs with
            | nil => rw [hps] at h2; simp at h2
            | cons q' rest =>
              cases rest with
              | nil => exact ⟨q, q', rfl⟩
              | cons _ _ => rw [hps] at h2; simp at h2
        refine ⟨p1, ?_⟩
        have hname := pySplit_two_segments hsplit
        have hp0 : parent.name = p0 := by
          rw [hpred.1, hsplit]
          rfl
        rw [hname, hp0]
  · intro e herr
    rw [listing_mapped_attributes, herr]

/-- C4 witness: in a flat list holding `Watersport` (id 1000, level 1) and
`Watersport > Kitesurfen` (id 1404, level 2), id 1404 resolves, is level 2
(never `NotApplicable`), and the parent lookup targets id 1000. -/
theorem C4_not_applicable_iff_level_witness :
    ((∃ nm lvl, fetch_category_attributes (fun _ _ => [])
        1404 [⟨"Watersport", 1000⟩, ⟨"Watersport > Kitesurfen", 1404⟩] =
        Except.error (FetchError.notApplicable nm lvl)) ↔
      (pySplit (" > ") (FlatCat.mk "Watersport > Kitesurfen" 1404).name).length ≠ 2) ∧
    (∀ fields,
      fetch_category_attributes (fun _ _ => [])
        1404 [⟨"Watersport", 1000⟩, ⟨"Watersport > Kitesurfen", 1404⟩] =
        Except.ok fields →
      ∃ parent ∈ [(⟨"Watersport", 1000⟩ : FlatCat), ⟨"Watersport > Kitesurfen", 1404⟩],
        parent.name =
          ((pySplit (" > ") (FlatCat.mk "Watersport > Kitesurfen" 1404).name).headD "") ∧
        (pySplit (" > ") parent.name).length = 1 ∧
        (∃ rest, (FlatCat.mk "Watersport > Kitesurfen" 1404).name =
          parent.name ++ " > " ++ rest) ∧
        fields = (fun _ _ => ([] : List MpAttr)) parent.id 1404) ∧
    (∀ e, fetch_category_attributes (fun _ _ => [])
        1404 [⟨"Watersport", 1000⟩, ⟨"Watersport > Kitesurfen", 1404⟩] =
        Except.error e →
      listing_mapped_attributes (fun _ _ => [])
        1404 [⟨"Watersport", 1000⟩, ⟨"Watersport > Kitesurfen", 1404⟩]
        RawAttrs.other = []) :=
  C4_not_applicable_iff_level (fun _ _ => [])
    [⟨"Watersport", 1000⟩, ⟨"Watersport > Kitesurfen", 1404⟩] 1404
    ⟨"Watersport > Kitesurfen", 1404⟩ RawAttrs.other (by decide)

theorem buildNameToAttr_mem {mp : List MpAttr} {p : String × MpAttr}
    (h : p ∈ buildNameToAttr mp) : p.2 ∈ mp := by
  have aux : ∀ (l : List MpAttr) (acc : List (String × MpAttr)),
      p ∈ l.foldl (fun d attr =>
        let label := attrDisplayLabel attr
        if label = "" then d else pyDictInsert d label attr) acc →
      p ∈ acc ∨ p.2 ∈ l := by
    intro l
    induction l with
    | nil => intro acc h; exact Or.inl h
    | cons attr l' ih =>
      intro acc h
      simp only [List.foldl_cons] at h
      rcases ih _ h with h' | h'
      · by_cases hlbl : attrDisplayLabel attr = ""
        · rw [if_pos hlbl] at h'
          exact Or.inl h'
        · rw [if_neg hlbl] at h'
          rcases pyDictInsert_mem h' with h'' | h''
          · exact Or.inl h''
          · refine Or.inr ?_
            rw [h'']
            exact List.mem_cons_self attr l'
      · exact Or.inr (List.mem_cons_of_mem attr h')
  rcases aux mp [] h with h' | h'
  · exact absurd h' (List.not_mem_nil p)
  · exact h'

/-- C1: every attribute the mapper emits takes its `key` from a schema
entry (never a raw AI attribute name), and when that entry carries
`options` (an enum field) the emitted `value` is one of the entry's option
tokens, obtained by exact or fuzzy match; an AI attribute whose name
fuzzy-matches no schema label at cutoff 0.6 is dropped (the loop body
yields nothing for it). -/
theorem C1_mapped_keys_from_schema (raw : RawAttrs) (mp : List MpAttr) :
    (∀ m ∈ map_ai_attributes_to_marktplaats raw mp,
      ∃ attr ∈ mp, m.key = attr.key ∧
        ∀ opts, attr.options = some opts →
          m.value ∈ opts.map (fun o => o.getD "")) ∧
    (∀ ai : AIAttr,
      get_close_matches_one ai.name ((buildNameToAttr mp).map (fun p => p.1))
        matchCutoff = none →
      mapOneAttr (buildNameToAttr mp) ai = none) := by
  constructor
  · intro m hm
    rw [map_ai_attributes_to_marktplaats] at hm
    obtain ⟨ai, _, hmap⟩ := List.mem_filterMap.mp hm
    rw [mapOneAttr] at hmap
    cases hgcm : get_close_matches_one ai.name
        ((buildNameToAttr mp).map (fun p => p.1)) matchCutoff with
    | none =>
      rw [hgcm] at hmap
      exact Option.noConfusion hmap
    | some mn =>
      rw [hgcm] at hmap
      dsimp only at hmap
      cases hfind : (buildNameToAttr mp).find? (fun p => p.1 = mn) with
      | none =>
        rw [hfind] at hmap
        exact Option.noConfusion hmap
      | some p =>
        rw [hfind] at hmap
        dsimp only at hmap
        have hattr : p.2 ∈ mp := buildNameToAttr_mem (List.mem_of_find?_eq_some hfind)
        refine ⟨p.2, hattr, ?_⟩
        cases hopts : p.2.options with
        | none =>
          rw [hopts] at hmap
          dsimp only at hmap
          simp only [Option.some.injEq] at hmap
          rw [← hmap]
          exact ⟨rfl, fun opts h => absurd h (by simp)⟩
        | some options =>
          rw [hopts] at hmap
          dsimp only at hmap
          by_cases hexact : ai.value ∈ options.map (fun o => o.getD "")
          · rw [if_pos hexact] at hmap
            simp only [Option.some.injEq] at hmap
            rw [← hmap]
            refine ⟨rfl, ?_⟩
            intro opts h
            simp only [Option.some.injEq] at h
            rw [← h]
            exact hexact
          · rw [if_neg hexact] at hmap
            cases hfz : get_close_matches_one ai.value
                (options.map (fun o => o.getD "")) enumValueCutoff with
            | none =>
              rw [hfz] at hmap
              exact Option.noConfusion hmap
            | some v =>
              rw [hfz] at hmap
              dsimp only at hmap
              simp only [Option.some.injEq] at hmap
              rw [← hmap]
              refine ⟨rfl, ?_⟩
              intro opts h
              simp only [Option.some.injEq] at h
              rw [← h]
              exact (gcm_some_spec hfz).1
  · intro ai hnone
    rw [mapOneAttr, hnone]

/-! ### `match_category_name` resolution lemmas (C2, C3) -/

theorem flatPairs_fst (flat : List FlatCat) :
    (flat.map (fun c => (c.name, c.id))).map Prod.fst = flat.map FlatCat.name := by
  induction flat with
  | nil => rfl
  | cons a as ih =>
    simp only [List.map_cons]
    rw [ih]

theorem flatPairs_keys (flat : List FlatCat) :
    (flat.map (fun c => (c.name, c.id))).map (fun p => p.1) = flat.map FlatCat.name := by
  induction flat with
  | nil => rfl
  | cons a as ih =>
    simp only [List.map_cons]
    rw [ih]

theorem flatPairs_fst_nodup (flat : List FlatCat)
    (h : (flat.map FlatCat.name).Nodup) :
    ((flat.map (fun c => (c.name, c.id))).map Prod.fst).Nodup := by
  rw [flatPairs_fst]
  exact h

theorem find_pair_eq {xs : List (String × Int)} (hnd : (xs.map Prod.fst).Nodup)
    {k : String} {v : Int} (hp : (k, v) ∈ xs) :
    xs.find? (fun q => q.1 = k) = some (k, v) := by
  cases hfind : xs.find? (fun q => q.1 = k) with
  | none =>
    exfalso
    have h1 := List.find?_eq_none.mp hfind (k, v) hp
    simp at h1
  | some q =>
    have hq1 : q.1 = k := by
      have h2 := List.find?_some hfind
      simpa using h2
    have hqmem := List.mem_of_find?_eq_some hfind
    have hqe : q = (k, v) := keys_inj_of_nodup hnd hqmem hp hq1
    rw [hqe]

/-- When the flattened names are pairwise distinct the insertion-ordered dict
built by `match_category_name` is the pair list itself, so the whole function
reduces to fuzzy matching over the names followed by a keyed lookup. -/
theorem match_category_name_eq_of_nodup (suggested : String) (flat : List FlatCat)
    (hnodup : (flat.map FlatCat.name).Nodup) :
    match_category_name suggested flat =
      match get_close_matches_one (simplify_path suggested) (flat.map FlatCat.name)
          matchCutoff with
      | some mn =>
        ((flat.map (fun c => (c.name, c.id))).find? (fun p => p.1 = mn)).map
          (fun p => (mn, p.2))
      | none => none := by
  simp only [match_category_name]
  rw [pyDict_of_nodup (flatPairs_fst_nodup flat hnodup), flatPairs_keys flat]

/-- C2 counterexample: against the flattened list `[ab1 (id 1), ab2 (id 2)]`
the word `ab` scores the same ratio `4/5 ≥ 0.6` on both candidates, yet the
resolver returns the SECOND entry `(ab2, 2)` — Python's
`heapq.nlargest(1, [(score, x), ...])` compares `(score, x)` tuples, so a
score tie goes to the code-point-wise greatest candidate string, not to the
first occurrence in flattened order. -/
theorem C2_counterexample_tie_break :
    ratio (bpopular "ab".data) "ab1".data "ab".data =
      ratio (bpopular "ab".data) "ab2".data "ab".data ∧
    matchCutoff ≤ ratio (bpopular "ab".data) "ab1".data "ab".data ∧
    (([⟨"ab1", 1⟩, ⟨"ab2", 2⟩] : List FlatCat).map FlatCat.name).Nodup ∧
    match_category_name "ab" [⟨"ab1", 1⟩, ⟨"ab2", 2⟩] = some ("ab2", 2) := by
  exact ⟨by decide, by decide, by decide, by decide⟩

/-- C2 (amended): over a flattened list with pairwise-distinct names, the
resolver first simplifies the suggested path, then returns `none` exactly
when no flattened name reaches ratio `0.6` against the simplified word; and
a returned pair `(mn, mid)` is an entry of the list whose name clears the
cutoff and dominates every other passing candidate — strictly higher ratio,
or an equal ratio with the winner code-point-wise greatest (Python max over
`(score, candidate)` tuples), NOT first occurrence in flattened order. -/
theorem C2_resolution_amended (suggested : String) (flat : List FlatCat)
    (hnodup : (flat.map FlatCat.name).Nodup) :
    (match_category_name suggested flat = none ↔
      ∀ c ∈ flat, ¬ matchCutoff ≤
        ratio (bpopular (simplify_path suggested).data) c.name.data
          (simplify_path suggested).data) ∧
    (∀ mn mid, match_category_name suggested flat = some (mn, mid) →
      (⟨mn, mid⟩ : FlatCat) ∈ flat ∧
      matchCutoff ≤ ratio (bpopular (simplify_path suggested).data) mn.data
        (simplify_path suggested).data ∧
      ∀ c ∈ flat,
        matchCutoff ≤ ratio (bpopular (simplify_path suggested).data) c.name.data
          (simplify_path suggested).data →
        ratio (bpopular (simplify_path suggested).data) c.name.data
            (simplify_path suggested).data <
          ratio (bpopular (simplify_path suggested).data) mn.data
            (simplify_path suggested).data ∨
        (ratio (bpopular (simplify_path suggested).data) c.name.data
            (simplify_path suggested).data =
          ratio (bpopular (simplify_path suggested).data) mn.data
            (simplify_path suggested).data ∧
          (c.name = mn ∨ pyStrLt c.name.data mn.data = true))) := by
  rw [match_category_name_eq_of_nodup suggested flat hnodup]
  cases hgcm : get_close_matches_one (simplify_path suggested) (flat.map FlatCat.name)
      matchCutoff with
  | none =>
    dsimp only
    constructor
    · constructor
      · intro _ c hc
        exact gcm_none_iff.mp hgcm c.name (List.mem_map.mpr ⟨c, hc, rfl⟩)
      · intro _
        rfl
    · intro mn mid hsome
      exact Option.noConfusion hsome
  | some m =>
    dsimp only
    have hspec := gcm_some_spec hgcm
    obtain ⟨c0, hc0, hc0n⟩ := List.mem_map.mp hspec.1
    constructor
    · constructor
      · intro hn
        rw [Option.map_eq_none'] at hn
        have h1 := List.find?_eq_none.mp hn (c0.name, c0.id)
          (List.mem_map.mpr ⟨c0, hc0, rfl⟩)
        simp only [decide_eq_true_eq] at h1
        exact absurd hc0n h1
      · intro hall
        have h1 := hall c0 hc0
        rw [hc0n] at h1
        exact absurd hspec.2.1 h1
    · intro mn mid hsome
      rw [Option.map_eq_some'] at hsome
      obtain ⟨p, hfind, hpe⟩ := hsome
      simp only [Prod.mk.injEq] at hpe
      obtain ⟨hm, hp2⟩ := hpe
      obtain ⟨c, hcmem, hcp⟩ := List.mem_map.mp (List.mem_of_find?_eq_some hfind)
      have hcp' : (c.name, c.id) = p := hcp
      have hkey := List.find?_some hfind
      simp only [decide_eq_true_eq] at hkey
      have hcn : c.name = mn := by rw [← hm, ← hkey, ← hcp']
      have hci : c.id = mid := by rw [← hp2, ← hcp']
      refine ⟨?_, ?_, ?_⟩
      · rw [← hcn, ← hci]
        exact hcmem
      · rw [← hm]
        exact hspec.2.1
      · intro c' hc' hr
        have hdom := hspec.2.2 c'.name (List.mem_map.mpr ⟨c', hc', rfl⟩) hr
        rw [← hm]
        exact hdom

/-- C2 witness: the amended theorem applied at the word `ab` and the
two-entry flattened list of the counterexample, yielding the `none`
characterization there. -/
theorem C2_resolution_amended_witness :
    (([⟨"ab1", 1⟩, ⟨"ab2", 2⟩] : List FlatCat).map FlatCat.name).Nodup ∧
    (match_category_name "ab" [⟨"ab1", 1⟩, ⟨"ab2", 2⟩] = none ↔
      ∀ c ∈ ([⟨"ab1", 1⟩, ⟨"ab2", 2⟩] : List FlatCat), ¬ matchCutoff ≤
        ratio (bpopular (simplify_path "ab").data) c.name.data
          (simplify_path "ab").data) :=
  ⟨by decide, (C2_resolution_amended "ab" [⟨"ab1", 1⟩, ⟨"ab2", 2⟩] (by decide)).1⟩

set_option maxRecDepth 200000 in
/-- C3 counterexample: in the flattened taxonomy
`[A (10), A > C (1), A > B (12), A > B > C (2)]` (pairwise-distinct paths),
resolving the member path `A > B > C` does not return its own entry `(2)`:
`simplify_path` first collapses it to `A > C`, which matches the DIFFERENT
entry `A > C` (id 1) exactly — the self round-trip fails. -/
theorem C3_counterexample_deep_path :
    (([⟨"A", 10⟩, ⟨"A > C", 1⟩, ⟨"A > B", 12⟩, ⟨"A > B > C", 2⟩] : List FlatCat).map
        FlatCat.name).Nodup ∧
    (⟨"A > B > C", 2⟩ : FlatCat) ∈
      ([⟨"A", 10⟩, ⟨"A > C", 1⟩, ⟨"A > B", 12⟩, ⟨"A > B > C", 2⟩] : List FlatCat) ∧
    match_category_name "A > B > C"
      [⟨"A", 10⟩, ⟨"A > C", 1⟩, ⟨"A > B", 12⟩, ⟨"A > B > C", 2⟩] = some ("A > C", 1) := by
  exact ⟨by decide, by decide, by decide⟩

/-- C3 (amended): the self round-trip holds for every entry whose stored
path is a fixed point of `simplify_path` (at most two `>`-levels, already
in stripped `first > last` form) and shorter than the 200-character autojunk
threshold, provided the flattened names are pairwise distinct: resolving
`c.name` returns exactly `(c.name, c.id)`. Entries deeper than two levels
are NOT fixed points and can resolve to a different entry. -/
theorem C3_self_roundtrip_simplified (flat : List FlatCat) (c : FlatCat)
    (hmem : c ∈ flat) (hnodup : (flat.map FlatCat.name).Nodup)
    (hfix : simplify_path c.name = c.name) (hlen : c.name.data.length < 200) :
    match_category_name c.name flat = some (c.name, c.id) := by
  rw [match_category_name_eq_of_nodup c.name flat hnodup, hfix,
    gcm_self (List.mem_map.mpr ⟨c, hmem, rfl⟩) hlen (by decide)]
  dsimp only
  rw [find_pair_eq (flatPairs_fst_nodup flat hnodup)
    (List.mem_map.mpr ⟨c, hmem, rfl⟩)]
  rfl

/-- C3 witness: the amended round-trip at the two-level entry `A > B`
(id 11) of the flattened list `[A (10), A > B (11)]`. -/
theorem C3_self_roundtrip_simplified_witness :
    (⟨"A > B", 11⟩ : FlatCat) ∈ ([⟨"A", 10⟩, ⟨"A > B", 11⟩] : List FlatCat) ∧
    match_category_name (FlatCat.mk "A > B" 11).name [⟨"A", 10⟩, ⟨"A > B", 11⟩] =
      some ((FlatCat.mk "A > B" 11).name, (FlatCat.mk "A > B" 11).id) :=
  ⟨by decide, C3_self_roundtrip_simplified [⟨"A", 10⟩, ⟨"A > B", 11⟩] ⟨"A > B", 11⟩
    (by decide) (by decide) (by decide) (by decide)⟩

/-- C1 witness: a concrete run — the raw name `Conditie` matches the schema
label exactly, the enum value `gebruikt` fuzzy-matches the option token
`Gebruikt`, and the emitted pair is `(conditie, Gebruikt)` whose key and
value come from the schema. -/
theorem C1_mapped_keys_from_schema_witness :
    (∀ m ∈ map_ai_attributes_to_marktplaats
        (RawAttrs.dict [("Conditie", "gebruikt")])
        [⟨"conditie", some "Conditie", none, some [some "Nieuw", some "Gebruikt"], false⟩],
      ∃ attr ∈ [(⟨"conditie", some "Conditie", none,
          some [some "Nieuw", some "Gebruikt"], false⟩ : MpAttr)],
        m.key = attr.key ∧
        ∀ opts, attr.options = some opts →
          m.value ∈ opts.map (fun o => o.getD "")) ∧
    (∀ ai : AIAttr,
      get_close_matches_one ai.name
        ((buildNameToAttr [(⟨"conditie", some "Conditie", none,
          some [some "Nieuw", some "Gebruikt"], false⟩ : MpAttr)]).map (fun p => p.1))
        matchCutoff = none →
      mapOneAttr (buildNameToAttr [(⟨"conditie", some "Conditie", none,
          some [some "Nieuw", some "Gebruikt"], false⟩ : MpAttr)]) ai = none) :=
  C1_mapped_keys_from_schema (RawAttrs.dict [("Conditie", "gebruikt")])
    [⟨"conditie", some "Conditie", none, some [some "Nieuw", some "Gebruikt"], false⟩]

end Marktplaatser
